import Mathlib

/-!
# IsiPython execution core — shallow embedding and verification

This file embeds the execution core of the IsiPython backend
(`app/services/transpiler.py`, `app/services/executor.py`,
`app/services/challenge_executor.py`, `app/services/errors.py`) as
executable Lean definitions and proves or refutes the frozen claims
about it.

Text is modelled as `List Char` (`Str`).  Python line-splitting
(`str.splitlines`, `str.split('\n')`), joining, stripping, substring
search and `re.sub`-style replacement are embedded explicitly.
Python `dict[int, int]` values (line maps) are modelled as association
lists whose keys are inserted in increasing order, with
`dict.get k default` modelled by `dget`.
-/

namespace IsiPython

/-- Program text: a Python `str` modelled as a list of characters. -/
abbrev Str := List Char

/-- Decidable equality of `Except` values (for concrete evaluation of
fallible embeddings). -/
instance {e a : Type} [DecidableEq e] [DecidableEq a] : DecidableEq (Except e a) :=
  fun x y =>
    match x, y with
    | .ok u, .ok v =>
      if h : u = v then .isTrue (by rw [h])
      else .isFalse (by intro hc; cases hc; exact h rfl)
    | .error u, .error v =>
      if h : u = v then .isTrue (by rw [h])
      else .isFalse (by intro hc; cases hc; exact h rfl)
    | .ok _, .error _ => .isFalse (by intro hc; cases hc)
    | .error _, .ok _ => .isFalse (by intro hc; cases hc)

/-- Python whitespace for `str.strip` / `\s`: space, tab, newline,
carriage return, vertical tab, form feed. -/
def isPySpace (c : Char) : Bool :=
  c = ' ' || c = '\t' || c = '\n' || c = '\x0d' || c = '\x0b' || c = '\x0c'

/-- ASCII word character, the `\w` class used by the `\b` boundaries in
`re.sub(rf'\b{kw}\b', ...)` (the keyword table is ASCII). -/
def isWordChar (c : Char) : Bool :=
  ('a' ≤ c && c ≤ 'z') || ('A' ≤ c && c ≤ 'Z') || ('0' ≤ c && c ≤ '9') || c = '_'

/-- `str.split(sep)` for a one-character separator: every string yields
at least one field; the empty string yields `[""]`. -/
def splitOnCh (sep : Char) : Str → List Str
  | [] => [[]]
  | c :: rest =>
    if c = sep then [] :: splitOnCh sep rest
    else
      match splitOnCh sep rest with
      | [] => [[c]]
      | h :: t => (c :: h) :: t

/-- `str.split('\n')`. -/
def pySplitNL : Str → List Str := splitOnCh '\n'

/-- `'\n'.join(lines)`. -/
def joinNL : List Str → Str
  | [] => []
  | [l] => l
  | l :: ls => l ++ '\n' :: joinNL ls

/-- `str.splitlines()` restricted to the `\n`, `\r\n` and `\r`
terminators: terminators end a line and are dropped; `"" → []`. -/
def pySplitlines : Str → List Str
  | [] => []
  | c :: rest =>
    if c = '\x0d' then
      match rest with
      | [] => [[]]
      | d :: rest2 =>
        if d = '\n' then [] :: pySplitlines rest2
        else [] :: pySplitlines (d :: rest2)
    else if c = '\n' then [] :: pySplitlines rest
    else
      match pySplitlines rest with
      | [] => [[c]]
      | h :: t => (c :: h) :: t

/-- `str.lstrip()`. -/
def pyLstrip (s : Str) : Str := s.dropWhile isPySpace

/-- `str.rstrip()`. -/
def pyRstrip (s : Str) : Str := (s.reverse.dropWhile isPySpace).reverse

/-- `str.strip()`: removes leading and trailing whitespace. -/
def pyStrip (s : Str) : Str := pyRstrip (pyLstrip s)

/-- `a.startswith(b)`. -/
def startsWith (pre s : Str) : Bool := pre.isPrefixOf s

/-- `b in a` for strings: substring test. -/
def containsSub : Str → Str → Bool
  | sub, [] => sub.isEmpty
  | sub, c :: cs => sub.isPrefixOf (c :: cs) || containsSub sub cs

/-- ASCII decimal digit (`\d` of the line-number pattern; the embedding
is restricted to ASCII digits). -/
def isDigitCh (c : Char) : Bool := 48 ≤ c.toNat && c.toNat ≤ 57

/-- `int(ds)` for a nonempty ASCII digit run. -/
def digitsToNat (ds : Str) : Nat := ds.foldl (fun a c => a * 10 + (c.toNat - 48)) 0

/-- Digit rendering with explicit fuel (any fuel `≥ n` is exact). -/
def natToStrAux : Nat → Nat → Str
  | 0, _ => []
  | fuel+1, n =>
    if n = 0 then [] else natToStrAux fuel (n / 10) ++ [Char.ofNat (48 + n % 10)]

/-- `str(n)` for a natural number: decimal, no sign, no leading zeros. -/
def natToStr (n : Nat) : Str :=
  if n = 0 then ['0'] else natToStrAux n n

/-- `line_mapping.get(k, k)`: dictionary lookup with the key itself as
default (line maps are dictionaries with distinct keys, modelled as
association lists). -/
def dget (m : List (Nat × Nat)) (k : Nat) : Nat := (List.lookup k m).getD k

/-- The literal `"line "` of the pattern `line (\d+)`. -/
def lineLit : Str := "line ".toList

/-- Whether the regex `line (\d+)` matches at the head of `s`. -/
def lineMatch (s : Str) : Bool :=
  lineLit.isPrefixOf s &&
    match s.drop 5 with
    | [] => false
    | d :: _ => isDigitCh d

/-- The scan of `_convert_line_numbers` with explicit fuel (structural
recursion; any fuel `≥ s.length` is exact, see `convLNAux_fuel`). -/
def convLNAux (m : List (Nat × Nat)) : Nat → Str → Str
  | 0, _ => []
  | _, [] => []
  | fuel+1, c :: cs =>
    if lineMatch (c :: cs) then
      lineLit ++
        natToStr (dget m (digitsToNat (((c :: cs).drop 5).takeWhile isDigitCh))) ++
        convLNAux m fuel (((c :: cs).drop 5).dropWhile isDigitCh)
    else
      c :: convLNAux m fuel cs

/-- `_convert_line_numbers` (services/errors.py): `re.sub(r'line (\d+)',
...)` — scan left to right; at each match consume the maximal digit run
`N` and emit `line {line_mapping.get(N, N)}`; other characters are
copied. -/
def convert_line_numbers (m : List (Nat × Nat)) (s : Str) : Str :=
  convLNAux m s.length s

/-- The head of `s`, if any, fails the predicate `p`. -/
def headFails (p : Char → Bool) (s : Str) : Prop :=
  ∀ d, s.head? = some d → p d = false

/-- The bounded session output buffer: `ExecutionSession.add_output_line`
appends and, past `max_output_lines = 100`, keeps only the last 100
entries (`self.output_lines[-self.max_output_lines:]`). -/
def add_output_line (buf : List Str) (line : Str) : List Str :=
  let b := buf ++ [line]
  if b.length > 100 then b.drop (b.length - 100) else b

/-! ## Session supervisor (`app/services/executor.py`) -/

/-- Python runtime errors the status-classification code can raise. -/
inductive PyErr where
  /-- `_finalize_session(session, return_code)` passes two arguments to
  a function defined with a single parameter. -/
  | typeErrorFinalizeArity
  /-- `int()` applied to a non-numeric `D-D-D:LINE:` payload. -/
  | valueErrorInt
  /-- `session.output_lines[-1]` on an empty buffer. -/
  | indexError
  deriving DecidableEq

/-- Observable state of an `ExecutionSession` at a classification call.
`process_started` is `session.process is not None`; `exitCode` is
`session.process.poll()`; `time_since_activity` abstracts
`time.time() - session.last_activity` in whole seconds. -/
structure Session where
  session_id : Str
  process_started : Bool := true
  exitCode : Option Int := none
  output_lines : List Str := []
  error_lines : List Str := []
  current_prompt : Str := []
  time_since_activity : Nat := 0
  code : Str := []
  line_mapping : List (Nat × Nat) := []
  deriving DecidableEq

/-- A status-snapshot dict; `none` stands for an absent key (or a
Python `None` value, which the claims never need to distinguish). -/
structure Snapshot where
  session_id : Option Str := none
  completed : Option Bool := none
  output : Option Str := none
  error : Option Str := none
  line_mapping : Option (List (Nat × Nat)) := none
  waiting_for_input : Option Bool := none
  prompt : Option Str := none
  waiting_for_debug_step : Option Bool := none
  current_line : Option Int := none
  varsPayload : Option Str := none
  still_running : Option Bool := none
  code : Option Str := none
  deriving DecidableEq

/-- The `D-D-D:` marker prefix. -/
def dddPrefix : Str := "D-D-D:".toList

/-- The `D-D-D:LINE:` marker prefix. -/
def dddLinePrefix : Str := "D-D-D:LINE:".toList

/-- The `D-D-D:VARS:` marker prefix. -/
def dddVarsPrefix : Str := "D-D-D:VARS:".toList

/-- The `D-D-D:STEP` marker line. -/
def dddStep : Str := "D-D-D:STEP".toList

/-- `int(s)` for a decimal string literal: optional surrounding
whitespace and sign, then a nonempty ASCII digit run (Python's
underscore digit grouping is not modelled; marker payloads are plain).
`none` models the `ValueError`. -/
def pyInt (s : Str) : Option Int :=
  let t := pyStrip s
  match t with
  | '-' :: ds =>
    if ds ≠ [] ∧ ds.all isDigitCh then some (-(digitsToNat ds : Int)) else none
  | '+' :: ds =>
    if ds ≠ [] ∧ ds.all isDigitCh then some (digitsToNat ds : Int) else none
  | ds =>
    if ds ≠ [] ∧ ds.all isDigitCh then some (digitsToNat ds : Int) else none

/-- `int(line.split(":")[2])` for a `D-D-D:LINE:<n>` marker. -/
def lineFieldParse (l : Str) : Option Int :=
  pyInt ((splitOnCh ':' l).getD 2 [])

/-- The decoded debug markers.  `vars` holds the raw serialized payload
after `D-D-D:VARS:`; the `ast.literal_eval` decode of that payload into
a variable map (with `{}` as fallback on a parse failure) happens in
the child-independent Python runtime and is abstracted away. -/
structure DebugInfo where
  line : Option Int := none
  vars : Option Str := none
  deriving DecidableEq

/-- `lst[-n:]`: the last `n` entries. -/
def lastN (n : Nat) (l : List Str) : List Str := l.drop (l.length - n)

/-- One iteration of the `_parse_debug_output` loop: record the first
`D-D-D:LINE:` payload (via `int`, which may raise) and the first
`D-D-D:VARS:` payload. -/
def parseDebugStep (l : Str) (info : DebugInfo) : Except PyErr DebugInfo :=
  if info.line = none ∧ startsWith dddLinePrefix l then
    match lineFieldParse l with
    | none => .error .valueErrorInt
    | some k => .ok { info with line := some k }
  else if info.vars = none ∧ startsWith dddVarsPrefix l then
    .ok { info with vars := some (l.drop 11) }
  else .ok info

/-- The `_parse_debug_output` loop: walk the reversed window and stop
once both marker payloads are present. -/
def parseDebugLoop : List Str → DebugInfo → Except PyErr DebugInfo
  | [], info => .ok info
  | l :: rest, info =>
    match parseDebugStep l info with
    | .error e => .error e
    | .ok info' =>
      if info'.line ≠ none ∧ info'.vars ≠ none then .ok info'
      else parseDebugLoop rest info'

/-- `_parse_debug_output`: scan the ten most recent buffered lines
backwards (`reversed(output_lines[-10:])`). -/
def parse_debug_output (output_lines : List Str) : Except PyErr DebugInfo :=
  parseDebugLoop (lastN 10 output_lines).reverse {}

/-- `_is_in_debug_mode`: some buffered line carries the marker prefix. -/
def is_in_debug_mode (s : Session) : Bool :=
  s.output_lines.any (fun l => startsWith dddPrefix l)

/-- `_is_waiting_for_debug_step`: the last buffered output line is
`D-D-D:STEP`. -/
def is_waiting_for_debug_step (s : Session) : Bool :=
  match s.output_lines.getLast? with
  | some l => l = dddStep
  | none => false

/-- `_is_waiting_for_input`: the cached prompt is non-empty and equals
the last buffered line (`output_lines[-1]` raises on an empty buffer;
`and` short-circuits when the prompt is empty). -/
def is_waiting_for_input (s : Session) : Except PyErr Bool :=
  if ¬ s.process_started ∨ s.exitCode ≠ none then .ok false
  else if s.current_prompt ≠ [] then
    match s.output_lines.getLast? with
    | none => .error .indexError
    | some l => .ok (l = s.current_prompt)
  else .ok false

/-- `_filter_program_output`: drop every `D-D-D:`-prefixed line and join
with newlines. -/
def filter_program_output (lines : List Str) : Str :=
  joinNL (lines.filter (fun l => ¬ startsWith dddPrefix l))

/-- Python truthiness of the parsed `current_line` (`if current_line:`
— `None` and `0` are falsy). -/
def intTruthy : Option Int → Bool
  | none => false
  | some k => k ≠ 0

/-- `_finalize_session` as defined (a single `session` parameter):
drain the remaining stream lines (`remOut`/`remErr`, external reads)
into the buffers, then return the terminal snapshot.  The temp-file
removal and the deregistration from `active_sessions` are external
effects of the same code path. -/
def finalize_session (s : Session) (remOut remErr : List Str) : Snapshot :=
  let out := remOut.foldl add_output_line s.output_lines
  let errs := s.error_lines ++ remErr
  { session_id := some s.session_id
    output := some (filter_program_output out)
    error := if errs ≠ [] then some (joinNL errs) else none
    line_mapping := some s.line_mapping
    completed := some true }

/-- `_check_execution_status`: classify the session state, in order —
invalid session, child exited, debug pause, input wait, idle timeout,
still running.  In the child-exited branch the source (line 138) calls
`_finalize_session(session, return_code)` although `_finalize_session`
(line 294) is defined with a single parameter, so that call raises
`TypeError` instead of finalizing. -/
def check_execution_status (s : Session) : Except PyErr Snapshot :=
  if ¬ s.process_started then
    .ok { output := none, error := some "Invalid session".toList, completed := some true }
  else
    match s.exitCode with
    | some _ => .error .typeErrorFinalizeArity
    | none =>
      if is_waiting_for_debug_step s then
        match parse_debug_output s.output_lines with
        | .error e => .error e
        | .ok info =>
          .ok { session_id := some s.session_id
                waiting_for_debug_step := some true
                waiting_for_input := some false
                current_line := info.line
                varsPayload := info.vars
                output := some (filter_program_output s.output_lines) }
      else
        match is_waiting_for_input s with
        | .error e => .error e
        | .ok true =>
          let base : Snapshot :=
            { session_id := some s.session_id
              waiting_for_input := some true
              prompt := some s.current_prompt
              output := some (filter_program_output s.output_lines) }
          if is_in_debug_mode s then
            match parse_debug_output s.output_lines with
            | .error e => .error e
            | .ok info =>
              .ok (if intTruthy info.line then { base with current_line := info.line } else base)
          else .ok base
        | .ok false =>
          if s.time_since_activity > 10 then
            .ok { session_id := some s.session_id
                  output := some (filter_program_output s.output_lines)
                  error := some "[Timeout]".toList
                  code := some s.code
                  completed := some true }
          else
            .ok { session_id := some s.session_id
                  output := some (filter_program_output s.output_lines)
                  completed := some false
                  still_running := some true }

/-! ## Transpiler (`app/services/transpiler.py`) -/

/-- A transpiled-to-source line map, built with keys 1, 2, … in order. -/
abbrev LineMap := List (Nat × Nat)

/-- `KEYWORD_MAP`: the isiXhosa → Python keyword table, in its source
insertion order. -/
def KEYWORD_MAP : List (Str × Str) :=
  [("Ubuxoki".toList, "False".toList),
   ("Inyaniso".toList, "True".toList),
   ("Akukho".toList, "None".toList),
   ("kwaye".toList, "and".toList),
   ("njenge".toList, "as".toList),
   ("qinisekisa".toList, "assert".toList),
   ("ngemva".toList, "async".toList),
   ("linda".toList, "await".toList),
   ("yekisa".toList, "break".toList),
   ("iklasi".toList, "class".toList),
   ("qhubeka".toList, "continue".toList),
   ("chaza".toList, "def".toList),
   ("cima".toList, "del".toList),
   ("okanye".toList, "or".toList),
   ("enye".toList, "else".toList),
   ("ngaphandle".toList, "except".toList),
   ("ekugqibeleni".toList, "finally".toList),
   ("jikelele".toList, "global".toList),
   ("ukuba".toList, "if".toList),
   ("ngenisa".toList, "import".toList),
   ("ngaphakathi".toList, "in".toList),
   ("umsebenzi".toList, "lambda".toList),
   ("ingaphandle".toList, "nonlocal".toList),
   ("hayi".toList, "not".toList),
   ("dlula".toList, "pass".toList),
   ("phakamisa".toList, "raise".toList),
   ("buyisela".toList, "return".toList),
   ("zama".toList, "try".toList),
   ("ngelixa".toList, "while".toList),
   ("nge".toList, "with".toList),
   ("velisa".toList, "yield".toList),
   ("ngokulandelelana".toList, "for".toList),
   ("ukusuka".toList, "from".toList),
   ("ngu".toList, "is".toList),
   ("okanye_ukuba".toList, "elif".toList)]

/-- `\b` before a match: the previous scanned character, if any, is not
a word character (the keywords all begin with word characters). -/
def prevBoundaryOk : Option Char → Bool
  | none => true
  | some p => !isWordChar p

/-- `\b` after a match: the character following the matched region, if
any, is not a word character. -/
def nextBoundaryOk (pat : Str) (s : Str) : Bool :=
  match s.drop pat.length with
  | [] => true
  | d :: _ => !isWordChar d

/-- Whether a replacement scan matches at the head of `s`: the pattern
is a nonempty prefix and, for `re.sub(rf'\b{kw}\b', …)` scans
(`useB = true`), both word boundaries hold. -/
def scanCond (pat : Str) (useB : Bool) (prev : Option Char) (s : Str) : Bool :=
  !pat.isEmpty && pat.isPrefixOf s &&
    (!useB || (prevBoundaryOk prev && nextBoundaryOk pat s))

/-- Left-to-right non-overlapping replacement scan with explicit fuel
(any fuel `≥ s.length` is exact): on a match emit `rep` and resume
after the matched region, otherwise copy one character.  `prev` is the
most recently consumed input character (for the `\b` check). -/
def replaceScanAux (pat rep : Str) (useB : Bool) : Nat → Option Char → Str → Str
  | 0, _, _ => []
  | _+1, _, [] => []
  | fuel+1, prev, c :: cs =>
    if scanCond pat useB prev (c :: cs) then
      rep ++ replaceScanAux pat rep useB fuel pat.getLast? ((c :: cs).drop pat.length)
    else
      c :: replaceScanAux pat rep useB fuel (some c) cs

/-- Python `s.replace(old, new)` (all non-overlapping occurrences,
left to right). -/
def pyReplace (s old new : Str) : Str := replaceScanAux old new false s.length none s

/-- `re.sub(rf'\b{kw}\b', rep, s)` for a keyword pattern. -/
def reSubWord (kw rep s : Str) : Str := replaceScanAux kw rep true s.length none s

/-- `_substitute_keywords`: fold the keyword substitutions over the
line in table order.  Note the scan runs over the whole line — string
literals inside the line are rewritten too. -/
def substitute_keywords (line : Str) : Str :=
  KEYWORD_MAP.foldl (fun l p => reSubWord p.1 p.2 l) line

/-- `line.split("#", 1)`: split at the first `#`, if any. -/
def splitFirstHash : Str → Option (Str × Str)
  | [] => none
  | c :: cs =>
    if c = '#' then some ([], cs)
    else
      match splitFirstHash cs with
      | none => none
      | some (a, b) => some (c :: a, b)

/-- One line of the base transpilation loop: substitute keywords in the
part before the first `#` and reattach the comment verbatim. -/
def transpileLine (line : Str) : Str :=
  match splitFirstHash line with
  | some (code, comment) => substitute_keywords code ++ '#' :: comment
  | none => substitute_keywords line

/-- `enumerate(lines, 1)`. -/
def enum1 (l : List Str) : List (Nat × Str) := l.enum.map (fun p => (p.1 + 1, p.2))

/-- The base loop of `transpile_code`: each source line (1-indexed by
`splitlines`) yields one output line mapped to itself. -/
def transpile_base_lines (src : Str) : List (Str × Nat) :=
  (enum1 (pySplitlines src)).map (fun p => (transpileLine p.2, p.1))

/-- Build the `line_mapping` dict from output pieces: output line `k`
(1-indexed) maps to the source line recorded with piece `k`. -/
def mkMap (ps : List (Str × Nat)) : LineMap :=
  (List.range' 1 ps.length).zip (ps.map Prod.snd)

/-- `\s*\)` after the closing quote of a prompt. -/
def closingParen (rest : Str) : Bool :=
  match rest.dropWhile isPySpace with
  | ')' :: _ => true
  | _ => false

/-- The lazy group `(.*?)\1\s*\)`: extend the prompt one character at a
time until the closing quote (followed by `\s*\)`) is reached; `.` does
not match a newline. -/
def tryPrompt (q : Char) : Str → Str → Option Str
  | _, [] => none
  | acc, c :: rest =>
    if c = '\n' then none
    else if c = q && closingParen rest then some acc
    else tryPrompt q (acc ++ [c]) rest

/-- Match `input\s*\(\s*(["\x27])(.*?)\1\s*\)` at the head of `s`,
returning the quote character and the prompt text. -/
def matchInputAt (s : Str) : Option (Char × Str) :=
  if "input".toList.isPrefixOf s then
    match (s.drop 5).dropWhile isPySpace with
    | '(' :: r2 =>
      (match r2.dropWhile isPySpace with
       | q :: r4 =>
         if q = '"' || q = '\x27' then (tryPrompt q [] r4).map (fun p => (q, p))
         else none
       | [] => none)
    | _ => none
  else none

/-- `re.search` of the input-prompt pattern: leftmost match. -/
def findInputMatch : Str → Option (Char × Str)
  | [] => none
  | c :: cs =>
    match matchInputAt (c :: cs) with
    | some r => some r
    | none => findInputMatch cs

/-- Modelled from the spec: the prompt marker emitted by the
prompt-splitting rewrite is `>>>` in normal and debug modes and empty
in challenge mode.  The `challenge_mode` parameter of
`_convert_input_calls` is missing from the transpiler snapshot under
`src/` — its tests (`test_convert_input_calls_challenge_mode`) and the
grader (`transpile_code(user_code, challenge_mode=True)`) use it. -/
def promptMarker (challenge : Bool) : Str :=
  if challenge then [] else ">>>".toList

/-- `input("")`, the replacement for matched input calls and for
`debug_pause()`. -/
def inputEmpty : Str := "input(\"\")".toList

/-- `debug_pause()`. -/
def pauseLine : Str := "debug_pause()".toList

/-- The per-line loop of `_convert_input_calls`: a line matching the
input-prompt pattern becomes a prompt `print` plus the line with
`input({q}{prompt}{q})` replaced by `input("")`; both output lines map
to the original line of the matched line (`existing_mapping.get`). -/
def convertPieces (m : LineMap) (challenge : Bool) : List (Nat × Str) → List (Str × Nat)
  | [] => []
  | (n, line) :: rest =>
    let v := dget m n
    match findInputMatch line with
    | some (q, prompt) =>
      let indent := line.takeWhile isPySpace
      let print_line :=
        indent ++ "print(".toList ++ q :: (promptMarker challenge ++ prompt ++ [q, ')'])
      let new_line :=
        pyReplace line ("input(".toList ++ q :: (prompt ++ [q, ')'])) inputEmpty
      (print_line, v) :: (new_line, v) :: convertPieces m challenge rest
    | none => (line, v) :: convertPieces m challenge rest

/-- `_convert_input_calls` (with the spec-modelled `challenge_mode`
marker selection): split, rewrite the matched lines, in debug mode
replace `debug_pause()` by `input("")` in every result line, join. -/
def convert_input_calls (code : Str) (m : LineMap) (debug challenge : Bool) :
    Str × LineMap :=
  let ps := convertPieces m challenge (enum1 (pySplitNL code))
  let outLines := ps.map Prod.fst
  let outLines2 :=
    if debug then outLines.map (fun l => pyReplace l pauseLine inputEmpty) else outLines
  (joinNL outLines2, mkMap ps)

/-- The `D-D-D:LINE:<n>` print statement. -/
def lineMarkerLine (v : Nat) : Str :=
  "print(\"D-D-D:LINE:".toList ++ natToStr v ++ "\")".toList

/-- The `D-D-D:VARS:` print statement serializing the filtered locals. -/
def varsLine : Str :=
  "print(\"D-D-D:VARS:\" + str(\x7bk: v for k, v in locals().items() if not k.startswith(\"__\") and type(v) in [int, float, str, bool, list, dict, type(None)]\x7d))".toList

/-- The `D-D-D:STEP` print statement. -/
def stepLine : Str := "print(\"D-D-D:STEP\")".toList

/-- The control-structure header keywords checked by the instrumenter. -/
def ctrlKeywords : List Str :=
  ["if".toList, "elif".toList, "else".toList, "try".toList, "except".toList,
   "finally".toList, "for".toList, "while".toList, "def".toList,
   "class".toList, "with".toList]

/-- The early-exit statement keywords. -/
def exitKeywords : List Str :=
  ["return".toList, "break".toList, "continue".toList, "raise".toList]

/-- `s.rstrip(':')`. -/
def rstripColons (s : Str) : Str := (s.reverse.dropWhile (fun c => c = ':')).reverse

/-- `s.split()[0]`: the first whitespace-delimited word, if any. -/
def firstWord : Str → Option Str
  | [] => none
  | c :: cs =>
    if isPySpace c then firstWord cs
    else some (c :: cs.takeWhile (fun d => !isPySpace d))

/-- The instrumenter's control-structure test:
`stripped.endswith(':') and any(stripped.rstrip(':').split()[0] in kw
for kw in [...])`.  Note `in kw` is a substring test against each
keyword, and `split()[0]` raises `IndexError` when the stripped line is
a nonempty run of colons. -/
def is_control_structure (stripped : Str) : Except PyErr Bool :=
  if stripped.getLast? = some ':' then
    match firstWord (rstripColons stripped) with
    | none => .error .indexError
    | some w => .ok (ctrlKeywords.any (fun kw => containsSub w kw))
  else .ok false

/-- `any(stripped.startswith(kw) for kw in ['return', ...])`. -/
def is_exit_statement (stripped : Str) : Bool :=
  exitKeywords.any (fun kw => startsWith kw stripped)

/-- The per-line output of `_add_debug_instrumentation`: blank and
comment lines and control headers pass through; other lines get a
`LINE` marker before and, unless they are early exits, `VARS`/`STEP`
markers and a `debug_pause()` after, all at `' ' * indentation` and all
mapped to `existing_mapping.get(line_num, line_num)`. -/
def debugPiecesLine (m : LineMap) (i : Nat) (line : Str) :
    Except PyErr (List (Str × Nat)) :=
  let stripped := pyStrip line
  if stripped.isEmpty || startsWith "#".toList stripped then
    .ok [(line, dget m i)]
  else
    match is_control_structure stripped with
    | .error e => .error e
    | .ok true => .ok [(line, dget m i)]
    | .ok false =>
      let v := dget m i
      let indent := List.replicate (line.length - (pyLstrip line).length) ' '
      let base := [(indent ++ lineMarkerLine v, v), (line, v)]
      if is_exit_statement stripped then .ok base
      else .ok (base ++ [(indent ++ varsLine, v), (indent ++ stepLine, v),
        (indent ++ pauseLine, v)])

/-- The line loop of `_add_debug_instrumentation`. -/
def debugPieces (m : LineMap) : List (Nat × Str) → Except PyErr (List (Str × Nat))
  | [] => .ok []
  | (i, line) :: rest =>
    match debugPiecesLine m i line with
    | .error e => .error e
    | .ok ps =>
      match debugPieces m rest with
      | .error e => .error e
      | .ok tail => .ok (ps ++ tail)

/-- `_add_debug_instrumentation`: split, instrument, join, remap. -/
def add_debug_instrumentation (code : Str) (m : LineMap) :
    Except PyErr (Str × LineMap) :=
  match debugPieces m (enum1 (pySplitNL code)) with
  | .error e => .error e
  | .ok ps => .ok (joinNL (ps.map Prod.fst), mkMap ps)

/-- A `ForeignKeyword` validation error: the offending source line
number, the forbidden Python keyword, and the required isiXhosa
keyword (`ValueError(f"Line {n}: Please use isiXhosa keyword '{x}'
instead of Python keyword '{p}'")`). -/
structure FKErr where
  line : Nat
  py : Str
  suggestion : Str
  deriving DecidableEq

/-- Word-boundary whole-word search, scanning with the previously seen
character (the search used by validation). -/
def containsWordAux (kw : Str) : Option Char → Str → Bool
  | _, [] => false
  | prev, c :: cs =>
    if scanCond kw true prev (c :: cs) then true
    else containsWordAux kw (some c) cs

/-- Whether `kw` occurs as a standalone word (at `\b` boundaries) in `s`. -/
def containsWord (kw s : Str) : Bool := containsWordAux kw none s

/-- Modelled from the spec: strip the comment — everything from the
first `#` that is not inside a quoted string on that line
(`validate_isipython_only` is absent from the transpiler snapshot under
`src/`; its tests import it and `transpile_code` calls it). -/
def stripCommentSpec : Str → Str
  | [] => []
  | c :: cs =>
    if c = '#' then []
    else if c = '"' || c = '\x27' then c :: stripInString c cs
    else c :: stripCommentSpec cs
where
  /-- Copy characters until the closing quote, then resume. -/
  stripInString (q : Char) : Str → Str
    | [] => []
    | c :: cs => if c = q then c :: stripCommentSpec cs else c :: stripInString q cs

/-- Modelled from the spec: `validate_isipython_only` — for each line,
strip the comment, then reject the program at the first line whose code
part contains some Python keyword of the table as a standalone word,
reporting that line number, the keyword, and the isiXhosa suggestion. -/
def validateLines : List (Nat × Str) → Option FKErr
  | [] => none
  | (i, l) :: rest =>
    match KEYWORD_MAP.find? (fun p => containsWord p.2 (stripCommentSpec l)) with
    | some p => some { line := i, py := p.2, suggestion := p.1 }
    | none => validateLines rest

/-- Modelled from the spec: phase-1 validation over the source lines. -/
def validate_isipython_only (src : Str) : Option FKErr :=
  validateLines (enum1 (pySplitlines src))

/-- A transpilation failure: phase-1 rejection or a Python runtime
error raised by the instrumenter. -/
inductive TranspileErr where
  | foreignKeyword (e : FKErr)
  | pyError (e : PyErr)
  deriving DecidableEq

/-- `transpile_code(source, debug_mode, challenge_mode)`: validate
(spec-modelled phase 1), substitute keywords per line with comments
reattached, optionally instrument for debugging, convert input calls,
and return the target source with its line map. -/
def transpile_code (src : Str) (debug challenge : Bool) :
    Except TranspileErr (Str × LineMap) :=
  match validate_isipython_only src with
  | some e => .error (.foreignKeyword e)
  | none =>
    let basePs := transpile_base_lines src
    let code0 := joinNL (basePs.map Prod.fst)
    let m0 := mkMap basePs
    match (if debug then add_debug_instrumentation code0 m0 else .ok (code0, m0)) with
    | .error e => .error (.pyError e)
    | .ok (code1, m1) => .ok (convert_input_calls code1 m1 debug challenge)

/-- Python `s.count(">>>")` — the number of non-overlapping `>>>`
occurrences, computed run-wise: `run` is the length of the current run
of `'>'` characters; each maximal run of length `k` contributes `k / 3`. -/
def countGt3Aux : Str → Nat → Nat
  | [], run => run / 3
  | c :: cs, run => if c = '>' then countGt3Aux cs (run + 1) else run / 3 + countGt3Aux cs 0

/-- The number of non-overlapping `>>>` marker occurrences in `s`. -/
def countGt3 (s : Str) : Nat := countGt3Aux s 0

/-- The number of lines matching the literal-prompt input pattern (the
per-line leftmost `re.search` match of `_convert_input_calls`). -/
def inputLineCount (ls : List Str) : Nat :=
  ls.countP (fun l => (findInputMatch l).isSome)

/-- The transpilation call of the grader: `execute_challenge_submission`
STEP 1 runs `transpile_code(user_code, challenge_mode=True)` (debug
defaulted off). -/
def graderTranspile (user_code : Str) : Except TranspileErr (Str × LineMap) :=
  transpile_code user_code false true

/-- A challenge-mode source whose own text contains the marker. -/
def cexSrcC2 : Str := "print(\">>>\")".toList

/-- A one-line program with a literal-prompt input call. -/
def wSrcC2 : Str := "x = input(\"igama\")".toList

/-- Its non-challenge transpilation target. -/
def wTgtC2 : Str := "print(\">>>igama\")\nx = input(\"\")".toList

/-- A two-line source program for exercising the debug pipeline. -/
def wSrcC8 : Str := "x = 1\nprint(x)".toList

/-- Its debug-mode transpilation target. -/
def wTgtC8 : Str :=
  joinNL [lineMarkerLine 1, "x = 1".toList, varsLine, stepLine, inputEmpty,
    lineMarkerLine 2, "print(x)".toList, varsLine, stepLine, inputEmpty]

/-- Its debug-mode line map. -/
def wMapC8 : LineMap :=
  [(1, 1), (2, 1), (3, 1), (4, 1), (5, 1), (6, 2), (7, 2), (8, 2), (9, 2), (10, 2)]

/-- A program with a Python keyword on line 1. -/
def wSrcC3 : Str := "import os".toList

/-! ## Challenge grader (`app/services/challenge_executor.py`) -/

/-- A challenge test case as consumed by `_execute_single_test` /
`execute_challenge_submission` (fields of the test-case store rows). -/
structure TestCase where
  input_data : List Str
  expected_output : Str
  points_weight : Int
  is_hidden : Bool := false
  explanation : Option Str := none

/-- The dict returned by `_run_with_input` (the child-process run is an
external effect; its observable result is this record).  `output`/
`error` are `None`-able strings. -/
structure RunResult where
  output : Option Str := none
  error : Option Str := none
  english_error : Option Str := none

/-- A per-case result dict built by `_execute_single_test`. -/
structure CaseResult where
  status : Str
  actual_output : Str
  error_message : Option Str := none
  english_error : Option Str := none

/-- Python truthiness of `result.get("error")`: `None` and the empty
string are falsy. -/
def errTruthy : Option Str → Bool
  | none => false
  | some s => s ≠ []

/-- The status literal `"passed"`. -/
def strPassed : Str := "passed".toList

/-- The status literal `"failed"`. -/
def strFailed : Str := "failed".toList

/-- `_execute_single_test`, with the child run `res` passed in place of
the `_run_with_input` call.  Note both `expected_output` and the actual
output go through Python `str.strip()` (both ends). -/
def execute_single_test (res : RunResult) (tc : TestCase) : CaseResult :=
  let expected := pyStrip tc.expected_output
  if errTruthy res.error then
    let error_msg := res.error.getD "Unknown error".toList
    let english_error := res.english_error.getD "Unkown error".toList
    let partial_output := res.output.getD []
    if startsWith "[Timeout]".toList error_msg then
      { status := strFailed
        actual_output := partial_output
        error_message := some "Ikhowudi yakho ithathe ixesha elide kakhulu".toList
        english_error := some "Code took too long to execute".toList }
    else
      { status := strFailed
        actual_output := partial_output
        error_message := some error_msg
        english_error := some english_error }
  else
    let actual_output := pyStrip (res.output.getD [])
    if actual_output = expected then
      { status := strPassed, actual_output := actual_output }
    else
      { status := strFailed, actual_output := actual_output }

/-- One visible-test entry of the grader's result. -/
structure VisibleTest where
  input_data : List Str
  expected_output : Str
  actual_output : Str
  status : Str
  explanation : Option Str
  error_message : Option Str := none
  english_error : Option Str := none

/-- The per-case loop of `execute_challenge_submission` (STEP 4):
returns `(total_score, tests_passed, visible_results, hidden_results)`.
`run` stands for `_execute_single_test(python_code, line_mapping, ·)`. -/
def gradeLoop (run : TestCase → CaseResult) : List TestCase →
    Int × Nat × List VisibleTest × List CaseResult
  | [] => (0, 0, [], [])
  | tc :: rest =>
    let result := run tc
    let (score, passed, vis, hid) := gradeLoop run rest
    let score' := if result.status = strPassed then score + tc.points_weight else score
    let passed' := if result.status = strPassed then passed + 1 else passed
    if tc.is_hidden then
      (score', passed', vis, result :: hid)
    else
      let entry : VisibleTest :=
        { input_data := tc.input_data
          expected_output := tc.expected_output
          actual_output := result.actual_output
          status := result.status
          explanation := tc.explanation
          error_message := if errTruthy result.error_message then result.error_message else none
          english_error := if errTruthy result.error_message then result.english_error else none }
      (score', passed', entry :: vis, hid)

/-- The grader's aggregate result (STEP 5–6 and the hidden-tests view). -/
structure Grade where
  status : Str
  score : Int
  tests_passed : Nat
  tests_total : Nat
  visible_tests : List VisibleTest
  hidden_total : Nat
  hidden_passed : Nat
  hidden_failed : Nat

/-- STEP 4–6 of `execute_challenge_submission` (submission/progress
store updates are external effects and carry the same aggregates). -/
def execute_challenge_aggregate (run : TestCase → CaseResult)
    (cases : List TestCase) : Grade :=
  let (total_score, tests_passed, vis, hid) := gradeLoop run cases
  { status := if tests_passed = cases.length then strPassed else strFailed
    score := total_score
    tests_passed := tests_passed
    tests_total := cases.length
    visible_tests := vis
    hidden_total := hid.length
    hidden_passed := (hid.filter (fun r => r.status = strPassed)).length
    hidden_failed := (hid.filter (fun r => r.status = strFailed)).length }

/-- A session whose child has exited with code 0 after printing `Molo`. -/
def exitedSession : Session :=
  { session_id := "s1".toList, exitCode := some 0, output_lines := ["Molo".toList] }

/-- A debug-paused session used as the witness of the amended C5. -/
def wDebugSession : Session :=
  { session_id := "wd".toList
    output_lines :=
      ["D-D-D:LINE:2".toList, "D-D-D:VARS:\x7b\x7d".toList, dddStep] }

/-- The decoded markers of `wDebugSession`. -/
def wDebugInfo : DebugInfo :=
  { line := some 2, vars := some "\x7b\x7d".toList }

/-- The decode the claim asserts: scan the **whole** buffer backwards
for the most recent `D-D-D:LINE:` marker, however far back it lies
(definition taken from the claim's words, for comparison with the
code's ten-line window). -/
def claimedDecodeLine (lines : List Str) : Option Int :=
  (lines.reverse.find? (fun l => startsWith dddLinePrefix l)).bind lineFieldParse

/-- A debug-paused session whose `LINE`/`VARS` markers lie more than
ten lines back in the buffer. -/
def farMarkerSession : Session :=
  { session_id := "far".toList
    output_lines :=
      "D-D-D:LINE:7".toList :: "D-D-D:VARS:\x7b\x7d".toList ::
        (List.replicate 9 "x".toList ++ [dddStep]) }

/-! ## Verified properties -/

/-- The residue after a `line (\d+)` match is shorter than the matched
string. -/
theorem lineMatch_residue_lt (c : Char) (cs : Str) :
    (((c :: cs).drop 5).dropWhile isDigitCh).length < (c :: cs).length := by
  have h1 := (List.dropWhile_suffix (l := (c :: cs).drop 5) isDigitCh).length_le
  have h2 : ((c :: cs).drop 5).length = (c :: cs).length - 5 := List.length_drop _ _
  simp only [List.length_cons] at *
  omega

/-- Any fuel at least `s.length` computes the same scan. -/
theorem convLNAux_fuel (m : List (Nat × Nat)) :
    ∀ f1 f2 (s : Str), s.length ≤ f1 → s.length ≤ f2 →
      convLNAux m f1 s = convLNAux m f2 s := by
  intro f1
  induction f1 with
  | zero =>
    intro f2 s hs1 _
    have : s = [] := List.length_eq_zero.mp (Nat.le_zero.mp hs1)
    subst this
    cases f2 <;> rfl
  | succ f1 ih =>
    intro f2 s hs1 hs2
    cases s with
    | nil => cases f2 <;> rfl
    | cons c cs =>
      cases f2 with
      | zero => simp at hs2
      | succ f2 =>
        simp only [convLNAux]
        by_cases hM : lineMatch (c :: cs)
        · simp only [hM, if_true]
          have hlt := lineMatch_residue_lt c cs
          have h1 : (((c :: cs).drop 5).dropWhile isDigitCh).length ≤ f1 := by
            simp only [List.length_cons] at hs1 hlt ⊢; omega
          have h2 : (((c :: cs).drop 5).dropWhile isDigitCh).length ≤ f2 := by
            simp only [List.length_cons] at hs2 hlt ⊢; omega
          rw [ih f2 _ h1 h2]
        · have h1 : cs.length ≤ f1 := by simp at hs1; omega
          have h2 : cs.length ≤ f2 := by simp at hs2; omega
          simp [hM, ih f2 cs h1 h2]

/-- Unfolding: empty text. -/
theorem convert_line_numbers_nil (m : List (Nat × Nat)) :
    convert_line_numbers m [] = [] := rfl

/-- Unfolding: no match at the head. -/
theorem convert_line_numbers_cons_nomatch (m : List (Nat × Nat)) (c : Char) (cs : Str)
    (h : lineMatch (c :: cs) = false) :
    convert_line_numbers m (c :: cs) = c :: convert_line_numbers m cs := by
  unfold convert_line_numbers
  simp [convLNAux, h]

/-- Unfolding: a match at the head. -/
theorem convert_line_numbers_cons_match (m : List (Nat × Nat)) (c : Char) (cs : Str)
    (h : lineMatch (c :: cs) = true) :
    convert_line_numbers m (c :: cs) =
      lineLit ++
        natToStr (dget m (digitsToNat (((c :: cs).drop 5).takeWhile isDigitCh))) ++
        convert_line_numbers m (((c :: cs).drop 5).dropWhile isDigitCh) := by
  unfold convert_line_numbers
  simp only [List.length_cons, convLNAux, h, if_true]
  have hlt := lineMatch_residue_lt c cs
  rw [convLNAux_fuel m cs.length _ _ (by simp only [List.length_cons] at hlt; omega) le_rfl]

/-- `Char.ofNat` inverts `Char.toNat` on valid code points. -/
theorem char_toNat_ofNat_valid (n : Nat) (h : n.isValidChar) :
    (Char.ofNat n).toNat = n := by
  simp [Char.ofNat, Char.ofNatAux, h, Char.toNat, UInt32.toNat, BitVec.toNat_ofNatLt]

/-- Code points of decimal digits are valid. -/
theorem digit_isValidChar (n : Nat) : (48 + n % 10).isValidChar := by
  have : n % 10 < 10 := Nat.mod_lt _ (by omega)
  exact Or.inl (by omega)

/-- Folding the digit-parsing step over a rendering of `n` recovers `n`
(scaled by the accumulator). -/
theorem natToStrAux_foldl (fuel : Nat) : ∀ n a, n ≤ fuel →
    List.foldl (fun a c => a * 10 + (c.toNat - 48)) a (natToStrAux fuel n) =
      a * 10 ^ (natToStrAux fuel n).length + n := by
  induction fuel with
  | zero =>
    intro n a hn
    have : n = 0 := Nat.le_zero.mp hn
    subst this
    simp [natToStrAux]
  | succ fuel ih =>
    intro n a hn
    by_cases h0 : n = 0
    · subst h0; simp [natToStrAux]
    · have hdiv : n / 10 ≤ fuel := by
        have : n / 10 < n := Nat.div_lt_self (Nat.pos_of_ne_zero h0) (by omega)
        omega
      have hmod : n % 10 < 10 := Nat.mod_lt _ (by omega)
      have htn : (Char.ofNat (48 + n % 10)).toNat = 48 + n % 10 :=
        char_toNat_ofNat_valid _ (digit_isValidChar n)
      simp only [natToStrAux, h0, if_false, List.foldl_append, List.foldl_cons,
        List.foldl_nil, List.length_append, List.length_cons, List.length_nil]
      rw [ih (n / 10) a hdiv, htn]
      have hdm : n / 10 * 10 + n % 10 = n := by omega
      have hpow : 10 ^ ((natToStrAux fuel (n / 10)).length + (0 + 1)) =
          10 ^ (natToStrAux fuel (n / 10)).length * 10 := by
        simp [pow_succ]
      rw [hpow]
      calc (a * 10 ^ (natToStrAux fuel (n / 10)).length + n / 10) * 10 + (48 + n % 10 - 48)
          = a * (10 ^ (natToStrAux fuel (n / 10)).length * 10) + (n / 10 * 10 + n % 10) := by
            have : 48 + n % 10 - 48 = n % 10 := by omega
            rw [this]; ring
        _ = a * (10 ^ (natToStrAux fuel (n / 10)).length * 10) + n := by rw [hdm]

/-- Every character of a digit rendering is a decimal digit. -/
theorem natToStrAux_digits (fuel : Nat) : ∀ n c, c ∈ natToStrAux fuel n →
    isDigitCh c = true := by
  induction fuel with
  | zero => intro n c hc; simp [natToStrAux] at hc
  | succ fuel ih =>
    intro n c hc
    by_cases h0 : n = 0
    · subst h0; simp [natToStrAux] at hc
    · simp only [natToStrAux, h0, if_false, List.mem_append, List.mem_singleton] at hc
      rcases hc with hc | hc
      · exact ih _ _ hc
      · subst hc
        have htn : (Char.ofNat (48 + n % 10)).toNat = 48 + n % 10 :=
          char_toNat_ofNat_valid _ (digit_isValidChar n)
        have hmod : n % 10 < 10 := Nat.mod_lt _ (by omega)
        simp [isDigitCh, htn]
        omega

/-- `str(n)` consists of decimal digits. -/
theorem natToStr_digits (n : Nat) : ∀ c ∈ natToStr n, isDigitCh c = true := by
  intro c hc
  unfold natToStr at hc
  by_cases h0 : n = 0
  · simp [h0] at hc
    subst hc
    decide
  · simp only [h0, if_false] at hc
    exact natToStrAux_digits n n c hc

/-- `str(n)` is never empty. -/
theorem natToStr_ne_nil (n : Nat) : natToStr n ≠ [] := by
  unfold natToStr
  by_cases h0 : n = 0
  · simp [h0]
  · simp only [h0, if_false]
    obtain ⟨f, rfl⟩ : ∃ f, n = f + 1 := ⟨n - 1, by omega⟩
    simp [natToStrAux, h0]

/-- Parsing a rendering of `n` yields `n` back. -/
theorem digitsToNat_natToStr (n : Nat) : digitsToNat (natToStr n) = n := by
  unfold natToStr digitsToNat
  by_cases h0 : n = 0
  · subst h0; decide
  · simp only [h0, if_false]
    have := natToStrAux_foldl n n 0 le_rfl
    simpa using this

/-- `takeWhile` over an all-`p` block followed by a failing head takes
exactly the block. -/
theorem takeWhile_append_block {p : Char → Bool} :
    ∀ {A X : Str}, (∀ a ∈ A, p a = true) → headFails p X →
      (A ++ X).takeWhile p = A := by
  intro A
  induction A with
  | nil =>
    intro X _ hX
    cases X with
    | nil => rfl
    | cons x xs =>
      have := hX x rfl
      simp [List.takeWhile, this]
  | cons a A ih =>
    intro X hA hX
    have ha := hA a (by simp)
    simp only [List.cons_append, List.takeWhile, ha]
    have := ih (fun b hb => hA b (by simp [hb])) hX
    simpa using this

/-- `dropWhile` over an all-`p` block followed by a failing head drops
exactly the block. -/
theorem dropWhile_append_block {p : Char → Bool} :
    ∀ {A X : Str}, (∀ a ∈ A, p a = true) → headFails p X →
      (A ++ X).dropWhile p = X := by
  intro A
  induction A with
  | nil =>
    intro X _ hX
    cases X with
    | nil => rfl
    | cons x xs =>
      have := hX x rfl
      simp [List.dropWhile, this]
  | cons a A ih =>
    intro X hA hX
    have ha := hA a (by simp)
    simp only [List.cons_append, List.dropWhile, ha]
    exact ih (fun b hb => hA b (by simp [hb])) hX

/-- The residue of `dropWhile` starts with a failing character. -/
theorem headFails_dropWhile (p : Char → Bool) (s : Str) :
    headFails p (s.dropWhile p) := by
  induction s with
  | nil => intro d hd; simp [List.dropWhile] at hd
  | cons c cs ih =>
    intro d hd
    by_cases hc : p c
    · simp only [List.dropWhile, hc] at hd
      exact ih d hd
    · simp only [List.dropWhile, hc] at hd
      simp only [Bool.false_eq_true, if_false, List.head?_cons, Option.some.injEq] at hd
      subst hd
      simpa using hc

/-- A matching position starts with `'l'`. -/
theorem lineMatch_head (c : Char) (cs : Str) (h : lineMatch (c :: cs) = true) :
    c = 'l' := by
  unfold lineMatch lineLit at h
  simp only [Bool.and_eq_true] at h
  have := h.1
  simp [List.isPrefixOf] at this
  exact this.1.symm

/-- Decomposition of a matching position. -/
theorem lineMatch_elim (s : Str) (h : lineMatch s = true) :
    ∃ d rr, s = lineLit ++ d :: rr ∧ isDigitCh d = true := by
  unfold lineMatch at h
  simp only [Bool.and_eq_true] at h
  obtain ⟨h1, h2⟩ := h
  obtain ⟨t, rfl⟩ : ∃ t, s = lineLit ++ t := by
    obtain ⟨t, ht⟩ := (List.isPrefixOf_iff_prefix).mp h1
    exact ⟨t, ht.symm⟩
  have hdrop : (lineLit ++ t).drop 5 = t := by
    have : lineLit.length = 5 := by decide
    rw [← this]
    exact List.drop_left lineLit t
  rw [hdrop] at h2
  cases t with
  | nil => simp at h2
  | cons d rr => exact ⟨d, rr, rfl, by simpa using h2⟩

/-- A digit directly after `"line "` produces a match. -/
theorem lineMatch_intro (d : Char) (rr : Str) (hd : isDigitCh d = true) :
    lineMatch (lineLit ++ d :: rr) = true := by
  unfold lineMatch
  have h1 : lineLit.isPrefixOf (lineLit ++ d :: rr) = true :=
    List.isPrefixOf_iff_prefix.mpr (List.prefix_append _ _)
  have hdrop : (lineLit ++ d :: rr).drop 5 = d :: rr := by
    have : lineLit.length = 5 := by decide
    rw [← this]
    exact List.drop_left lineLit _
  rw [h1, hdrop]
  simpa using hd

/-- The scan preserves the head character. -/
theorem convert_line_numbers_head (m : List (Nat × Nat)) (s : Str) :
    (convert_line_numbers m s).head? = s.head? := by
  cases s with
  | nil => rfl
  | cons c cs =>
    by_cases hM : lineMatch (c :: cs)
    · rw [convert_line_numbers_cons_match m c cs hM]
      have hc := lineMatch_head c cs hM
      subst hc
      rfl
    · rw [convert_line_numbers_cons_nomatch m c cs (by simpa using hM)]
      rfl

/-- The scan preserves a failing head. -/
theorem headFails_convert_line_numbers (p : Char → Bool) (m : List (Nat × Nat))
    (s : Str) (h : headFails p s) : headFails p (convert_line_numbers m s) := by
  intro d hd
  rw [convert_line_numbers_head] at hd
  exact h d hd

/-- If the input did not match at a position, neither does the output of
the scan of its tail. -/
theorem lineMatch_convert_tail (m : List (Nat × Nat)) (c : Char) (cs : Str)
    (h : lineMatch (c :: cs) = false) :
    lineMatch (c :: convert_line_numbers m cs) = false := by
  by_contra hM
  simp only [Bool.not_eq_false] at hM
  obtain ⟨d, rr, heq, hd⟩ := lineMatch_elim _ hM
  have hc : c = 'l' := lineMatch_head _ _ hM
  have hcs : convert_line_numbers m cs = 'i' :: 'n' :: 'e' :: ' ' :: d :: rr := by
    have : lineLit ++ d :: rr = 'l' :: 'i' :: 'n' :: 'e' :: ' ' :: d :: rr := rfl
    rw [this] at heq
    exact (List.cons_eq_cons.mp heq).2
  -- walk the four literal characters back through the scan
  have step : ∀ (x : Char) (s' t : Str), x ≠ 'l' →
      convert_line_numbers m s' = x :: t →
      ∃ s'', s' = x :: s'' ∧ convert_line_numbers m s'' = t := by
    intro x s' t hx hconv
    cases s' with
    | nil => simp [convert_line_numbers_nil] at hconv
    | cons y ys =>
      have hy : y = x := by
        have := convert_line_numbers_head m (y :: ys)
        rw [hconv] at this
        simpa using this.symm
      subst hy
      have hnm : lineMatch (y :: ys) = false := by
        by_contra hmm
        simp only [Bool.not_eq_false] at hmm
        exact hx (lineMatch_head _ _ hmm)
      rw [convert_line_numbers_cons_nomatch m y ys hnm] at hconv
      exact ⟨ys, rfl, (List.cons_eq_cons.mp hconv).2⟩
  obtain ⟨cs1, hcs1, hconv1⟩ := step 'i' cs _ (by decide) hcs
  obtain ⟨cs2, hcs2, hconv2⟩ := step 'n' cs1 _ (by decide) hconv1
  obtain ⟨cs3, hcs3, hconv3⟩ := step 'e' cs2 _ (by decide) hconv2
  obtain ⟨cs4, hcs4, hconv4⟩ := step ' ' cs3 _ (by decide) hconv3
  have hhead : cs4.head? = some d := by
    have := convert_line_numbers_head m cs4
    rw [hconv4] at this
    simpa using this.symm
  obtain ⟨cs5, hcs5⟩ : ∃ cs5, cs4 = d :: cs5 := by
    cases cs4 with
    | nil => simp at hhead
    | cons a b =>
      simp only [List.head?_cons, Option.some.injEq] at hhead
      exact ⟨b, by rw [hhead]⟩
  have : lineMatch (c :: cs) = true := by
    subst hc
    rw [hcs1, hcs2, hcs3, hcs4, hcs5]
    exact lineMatch_intro d cs5 hd
  rw [this] at h
  exact absurd h (by simp)

/-- A successful association-list lookup returns a stored pair. -/
theorem lookup_mem {m : List (Nat × Nat)} {k v : Nat}
    (h : List.lookup k m = some v) : (k, v) ∈ m := by
  induction m with
  | nil => simp [List.lookup] at h
  | cons p t ih =>
    rw [List.lookup] at h
    by_cases hk : k = p.1
    · subst hk
      simp at h
      subst h
      exact List.mem_cons_self _ _
    · have : (k == p.1) = false := by simpa using hk
      rw [this] at h
      exact List.mem_cons_of_mem _ (ih h)

/-- When every stored value is a fixed point of the lookup, `dget`
is idempotent as a function of the key. -/
theorem dget_dget (m : List (Nat × Nat))
    (Hm : ∀ p ∈ m, dget m p.2 = p.2) (n : Nat) :
    dget m (dget m n) = dget m n := by
  unfold dget
  cases h : List.lookup n m with
  | none => simp [h]
  | some w =>
    have := Hm (n, w) (lookup_mem h)
    simpa [dget] using this

/-- One rewrite step of the scan at `"line " ++ digits ++ residue`. -/
theorem convert_line_numbers_block (m : List (Nat × Nat)) (A X : Str)
    (hA : A ≠ []) (hAd : ∀ a ∈ A, isDigitCh a = true) (hX : headFails isDigitCh X) :
    convert_line_numbers m (lineLit ++ A ++ X) =
      lineLit ++ natToStr (dget m (digitsToNat A)) ++ convert_line_numbers m X := by
  obtain ⟨e, es, rfl⟩ : ∃ e es, A = e :: es := by
    cases A with
    | nil => exact absurd rfl hA
    | cons e es => exact ⟨e, es, rfl⟩
  have he : isDigitCh e = true := hAd e (by simp)
  have hshape : lineLit ++ (e :: es) ++ X = lineLit ++ e :: (es ++ X) := by simp
  have hM : lineMatch (lineLit ++ (e :: es) ++ X) = true := by
    rw [hshape]
    exact lineMatch_intro e (es ++ X) he
  have hcons : lineLit ++ (e :: es) ++ X =
      'l' :: ('i' :: 'n' :: 'e' :: ' ' :: (e :: es ++ X)) := by
    simp [lineLit]
  rw [hcons] at hM ⊢
  rw [convert_line_numbers_cons_match m _ _ hM]
  have hdrop : ('l' :: ('i' :: 'n' :: 'e' :: ' ' :: (e :: es ++ X))).drop 5 =
      (e :: es) ++ X := by simp
  rw [hdrop, takeWhile_append_block hAd hX, dropWhile_append_block hAd hX]

/-- The remap scan is idempotent whenever every value stored in the
line map is itself mapped to itself. -/
theorem convert_line_numbers_idem_aux (m : List (Nat × Nat))
    (Hm : ∀ p ∈ m, dget m p.2 = p.2) :
    ∀ (N : Nat) (s : Str), s.length ≤ N →
      convert_line_numbers m (convert_line_numbers m s) = convert_line_numbers m s := by
  intro N
  induction N with
  | zero =>
    intro s hs
    have : s = [] := List.length_eq_zero.mp (Nat.le_zero.mp hs)
    subst this
    rfl
  | succ N ih =>
    intro s hs
    cases s with
    | nil => rfl
    | cons c cs =>
      by_cases hM : lineMatch (c :: cs)
      · obtain ⟨d, rr, heq, hd⟩ := lineMatch_elim _ hM
        set A := (d :: rr).takeWhile isDigitCh with hA
        set X := (d :: rr).dropWhile isDigitCh with hX
        have hAX : A ++ X = d :: rr := by
          rw [hA, hX]; exact List.takeWhile_append_dropWhile isDigitCh (d :: rr)
        have hAd : ∀ a ∈ A, isDigitCh a = true := fun a ha =>
          List.mem_takeWhile_imp ha
        have hXf : headFails isDigitCh X := headFails_dropWhile _ _
        have hAne : A ≠ [] := by
          rw [hA]
          simp [List.takeWhile, hd]
        have hs' : c :: cs = lineLit ++ A ++ X := by
          rw [List.append_assoc, hAX, heq]
        rw [hs', convert_line_numbers_block m A X hAne hAd hXf]
        have hXlen : X.length ≤ N := by
          have h1 : X.length ≤ rr.length + 1 := by
            rw [hX]
            exact (List.dropWhile_suffix isDigitCh).length_le
          have h2 : (c :: cs).length = rr.length + 6 := by
            rw [heq]
            simp [lineLit]
          simp only [List.length_cons] at hs h2
          omega
        have hconvX := headFails_convert_line_numbers isDigitCh m X hXf
        rw [convert_line_numbers_block m (natToStr (dget m (digitsToNat A)))
          (convert_line_numbers m X) (natToStr_ne_nil _) (natToStr_digits _) hconvX]
        rw [digitsToNat_natToStr, dget_dget m Hm, ih X hXlen]
      · have hM' : lineMatch (c :: cs) = false := by simpa using hM
        rw [convert_line_numbers_cons_nomatch m c cs hM']
        rw [convert_line_numbers_cons_nomatch m c _ (lineMatch_convert_tail m c cs hM')]
        rw [ih cs (by simp only [List.length_cons] at hs; omega)]

/-- C7 (counterexample) — the line-remap step is not idempotent for
every line map: with the map `{3 ↦ 2, 2 ↦ 1}` (as produced for a
program whose first source line is split into two target lines), the
text `"line 3"` remaps once to `"line 2"` and a second application
changes it again, to `"line 1"`. -/
theorem convert_line_numbers_not_idempotent :
    convert_line_numbers [(3, 2), (2, 1)]
        (convert_line_numbers [(3, 2), (2, 1)] "line 3".toList) ≠
      convert_line_numbers [(3, 2), (2, 1)] "line 3".toList := by decide

/-- C7 (amended) — the diagnostic translator's line-number remap step is
idempotent for every error text and every line map in which each stored
source-line value is itself mapped to itself (`m.get(v, v) = v` for
every value `v` of the map): applying the remap twice with such a map
yields the same string as applying it once. -/
theorem convert_line_numbers_remap_idempotent (m : List (Nat × Nat)) (s : Str)
    (Hm : ∀ p ∈ m, dget m p.2 = p.2) :
    convert_line_numbers m (convert_line_numbers m s) =
      convert_line_numbers m s :=
  convert_line_numbers_idem_aux m Hm s.length s le_rfl

/-- Witness for the amended C7 at a concrete map and error text. -/
theorem convert_line_numbers_remap_idempotent_witness :
    (∀ p ∈ [(2, 1), (3, 1), (1, 1)], dget [(2, 1), (3, 1), (1, 1)] p.2 = p.2) ∧
    convert_line_numbers [(2, 1), (3, 1), (1, 1)]
        (convert_line_numbers [(2, 1), (3, 1), (1, 1)]
          "Error on line 3, also line 8".toList) =
      convert_line_numbers [(2, 1), (3, 1), (1, 1)]
        "Error on line 3, also line 8".toList :=
  ⟨by decide,
    convert_line_numbers_remap_idempotent [(2, 1), (3, 1), (1, 1)]
      "Error on line 3, also line 8".toList (by decide)⟩

/-- Fields of `splitOnCh` never contain the separator. -/
theorem splitOnCh_no_sep (sep : Char) :
    ∀ (s : Str) (l : Str), l ∈ splitOnCh sep s → sep ∉ l := by
  intro s
  induction s with
  | nil =>
    intro l hl
    simp [splitOnCh] at hl
    subst hl
    simp
  | cons c rest ih =>
    intro l hl
    by_cases hc : c = sep
    · simp only [splitOnCh, hc, if_true, List.mem_cons] at hl
      rcases hl with hl | hl
      · subst hl; simp
      · exact ih l hl
    · simp only [splitOnCh, hc, if_false] at hl
      cases hrec : splitOnCh sep rest with
      | nil =>
        rw [hrec] at hl
        simp at hl
        subst hl
        simp only [List.mem_singleton]
        exact fun h => hc h.symm
      | cons h t =>
        rw [hrec] at hl
        simp only [List.mem_cons] at hl
        rcases hl with hl | hl
        · subst hl
          intro hmem
          simp only [List.mem_cons] at hmem
          rcases hmem with hmem | hmem
          · exact hc hmem.symm
          · exact ih h (by rw [hrec]; simp) hmem
        · exact ih l (by rw [hrec]; simp [hl])

/-- `splitOnCh` never returns the empty list. -/
theorem splitOnCh_ne_nil (sep : Char) : ∀ s : Str, splitOnCh sep s ≠ [] := by
  intro s
  induction s with
  | nil => simp [splitOnCh]
  | cons c rest ih =>
    by_cases hc : c = sep
    · simp [splitOnCh, hc]
    · simp only [splitOnCh, hc, if_false]
      cases hrec : splitOnCh sep rest <;> simp

/-- The head field of `splitOnCh` is a prefix of the input. -/
theorem splitOnCh_head_prefix (sep : Char) :
    ∀ (s : Str) (h : Str) (t : List Str), splitOnCh sep s = h :: t → h <+: s := by
  intro s
  induction s with
  | nil =>
    intro h t hs
    simp [splitOnCh] at hs
    rw [hs.1]
  | cons c rest ih =>
    intro h t hs
    by_cases hc : c = sep
    · simp only [splitOnCh, hc, if_true, List.cons.injEq] at hs
      rw [← hs.1]
      exact List.nil_prefix
    · simp only [splitOnCh, hc, if_false] at hs
      cases hrec : splitOnCh sep rest with
      | nil => exact absurd hrec (splitOnCh_ne_nil sep rest)
      | cons h0 t0 =>
        rw [hrec] at hs
        simp only [List.cons.injEq] at hs
        rw [← hs.1]
        obtain ⟨t2, ht2⟩ := ih h0 t0 hrec
        exact ⟨t2, by rw [List.cons_append, ht2]⟩

/-- Every field of `splitOnCh` is an infix of the input. -/
theorem splitOnCh_mem_infix (sep : Char) :
    ∀ (s : Str) (l : Str), l ∈ splitOnCh sep s → l <:+: s := by
  intro s
  induction s with
  | nil =>
    intro l hl
    simp [splitOnCh] at hl
    subst hl
    exact List.infix_refl _
  | cons c rest ih =>
    intro l hl
    by_cases hc : c = sep
    · simp only [splitOnCh, hc, if_true, List.mem_cons] at hl
      rcases hl with hl | hl
      · subst hl; exact List.nil_infix
      · exact (ih l hl).trans (List.infix_cons (List.infix_refl rest))
    · simp only [splitOnCh, hc, if_false] at hl
      cases hrec : splitOnCh sep rest with
      | nil => exact absurd hrec (splitOnCh_ne_nil sep rest)
      | cons h0 t0 =>
        rw [hrec] at hl
        simp only [List.mem_cons] at hl
        rcases hl with hl | hl
        · subst hl
          obtain ⟨t2, ht2⟩ := splitOnCh_head_prefix sep rest h0 t0 hrec
          exact ⟨[], t2, by rw [List.nil_append, List.cons_append, ht2]⟩
        · exact (ih l (by rw [hrec]; simp [hl])).trans
            (List.infix_cons (List.infix_refl rest))

/-- A separator-free string is a single field. -/
theorem splitOnCh_no_sep_id (sep : Char) :
    ∀ s : Str, sep ∉ s → splitOnCh sep s = [s] := by
  intro s
  induction s with
  | nil => intro _; rfl
  | cons c rest ih =>
    intro hs
    have hc : ¬ c = sep := by
      intro h; exact hs (by simp [h])
    have hrest : sep ∉ rest := by
      intro h; exact hs (by simp [h])
    simp only [splitOnCh, hc, if_false, ih hrest]

/-- Splitting a separator-free prefix followed by a separator. -/
theorem splitOnCh_append_sep (sep : Char) :
    ∀ (a b : Str), sep ∉ a → splitOnCh sep (a ++ sep :: b) = a :: splitOnCh sep b := by
  intro a
  induction a with
  | nil =>
    intro b _
    simp [splitOnCh]
  | cons c a' ih =>
    intro b ha
    have hc : ¬ c = sep := by intro h; exact ha (by simp [h])
    have ha' : sep ∉ a' := by intro h; exact ha (by simp [h])
    simp only [List.cons_append, splitOnCh, hc, if_false]
    rw [show (a'.append (sep :: b) : Str) = a' ++ sep :: b from rfl, ih b ha']

/-- Split/join round trip for nonempty lists of separator-free lines. -/
theorem pySplitNL_joinNL (lines : List Str) (hne : lines ≠ [])
    (hnl : ∀ l ∈ lines, '\n' ∉ l) : pySplitNL (joinNL lines) = lines := by
  induction lines with
  | nil => exact absurd rfl hne
  | cons l ls ih =>
    cases ls with
    | nil =>
      show pySplitNL (joinNL [l]) = [l]
      unfold joinNL pySplitNL
      exact splitOnCh_no_sep_id '\n' l (hnl l (by simp))
    | cons l2 ls2 =>
      have hjoin : joinNL (l :: l2 :: ls2) = l ++ '\n' :: joinNL (l2 :: ls2) := rfl
      show pySplitNL _ = _
      rw [hjoin]
      unfold pySplitNL
      rw [splitOnCh_append_sep '\n' l _ (hnl l (by simp))]
      have := ih (by simp) (fun x hx => hnl x (by simp [hx]))
      unfold pySplitNL at this
      rw [this]

/-- The lines of `pySplitlines` never contain a newline (nor a
carriage return). -/
theorem pySplitlines_no_newline :
    ∀ (s : Str) (l : Str), l ∈ pySplitlines s → '\n' ∉ l ∧ '\x0d' ∉ l := by
  suffices h : ∀ (N : Nat) (s : Str), s.length ≤ N →
      ∀ l ∈ pySplitlines s, '\n' ∉ l ∧ '\x0d' ∉ l from
    fun s => h s.length s le_rfl
  intro N
  induction N with
  | zero =>
    intro s hs l hl
    have : s = [] := List.length_eq_zero.mp (Nat.le_zero.mp hs)
    subst this
    simp [pySplitlines] at hl
  | succ N ih =>
    intro s hs l hl
    cases s with
    | nil => simp [pySplitlines] at hl
    | cons c rest =>
      simp only [List.length_cons] at hs
      rw [pySplitlines.eq_def] at hl
      dsimp only at hl
      split at hl
      · -- c = '\x0d'
        rename_i hcr
        split at hl
        · -- rest = []
          simp at hl
          subst hl
          simp
        · rename_i d rest2
          split at hl
          · rename_i hd
            simp only [List.mem_cons] at hl
            rcases hl with hl | hl
            · subst hl; simp
            · exact ih rest2 (by simp_all; omega) l hl
          · simp only [List.mem_cons] at hl
            rcases hl with hl | hl
            · subst hl; simp
            · exact ih (d :: rest2) (by omega) l hl
      · split at hl
        · -- c = '\n'
          simp only [List.mem_cons] at hl
          rcases hl with hl | hl
          · subst hl; simp
          · exact ih rest (by omega) l hl
        · rename_i hcr hcn
          split at hl
          · -- pySplitlines rest = []
            simp at hl
            subst hl
            simp only [List.mem_cons, List.not_mem_nil, or_false, List.mem_singleton]
            exact ⟨fun h => hcn h.symm, fun h => hcr h.symm⟩
          · rename_i h0 t0 hrec
            simp only [List.mem_cons] at hl
            rcases hl with hl | hl
            · subst hl
              have hh0 := ih rest (by omega) h0 (by rw [hrec]; simp)
              constructor
              · intro hmem
                simp only [List.mem_cons] at hmem
                rcases hmem with hmem | hmem
                · exact hcn hmem.symm
                · exact hh0.1 hmem
              · intro hmem
                simp only [List.mem_cons] at hmem
                rcases hmem with hmem | hmem
                · exact hcr hmem.symm
                · exact hh0.2 hmem
            · exact ih rest (by omega) l (by rw [hrec]; simp [hl])

/-- The count is monotone in the pending-run accumulator. -/
theorem countGt3Aux_mono : ∀ (s : Str) (r' r : Nat), r' ≤ r →
    countGt3Aux s r' ≤ countGt3Aux s r := by
  intro s
  induction s with
  | nil => intro r' r h; exact Nat.div_le_div_right h
  | cons c cs ih =>
    intro r' r h
    by_cases hc : c = '>'
    · simp only [countGt3Aux, hc, if_true]
      exact ih _ _ (by omega)
    · simp only [countGt3Aux, hc, if_false]
      have h3 : r' / 3 ≤ r / 3 := Nat.div_le_div_right h
      have := ih 0 0 le_rfl
      omega

/-- The pending run alone already contributes `r / 3`. -/
theorem countGt3Aux_ge (s : Str) : ∀ r : Nat, r / 3 ≤ countGt3Aux s r := by
  induction s with
  | nil => intro r; exact le_rfl
  | cons c cs ih =>
    intro r
    by_cases hc : c = '>'
    · simp only [countGt3Aux, hc, if_true]
      calc r / 3 ≤ (r + 1) / 3 := Nat.div_le_div_right (by omega)
        _ ≤ countGt3Aux cs (r + 1) := ih _
    · simp only [countGt3Aux, hc, if_false]
      omega

/-- A `'>'`-free block before `X` contributes nothing (flat run). -/
theorem countGt3Aux_gtfree_append {A : Str} (h : '>' ∉ A) :
    ∀ X : Str, countGt3Aux (A ++ X) 0 = countGt3Aux X 0 := by
  induction A with
  | nil => intro X; rfl
  | cons c A' ih =>
    intro X
    have hc : ¬ c = '>' := fun hh => h (by simp [hh])
    have hA' : '>' ∉ A' := fun hh => h (by simp [hh])
    simp only [List.cons_append, countGt3Aux, hc, if_false, List.append_eq]
    rw [ih hA' X]
    omega

/-- A nonempty `'>'`-free block flushes the pending run. -/
theorem countGt3Aux_gtfree_append_ne {A : Str} (h : '>' ∉ A) (hne : A ≠ []) (X : Str)
    (r : Nat) : countGt3Aux (A ++ X) r = r / 3 + countGt3Aux X 0 := by
  cases A with
  | nil => exact absurd rfl hne
  | cons c A' =>
    have hc : ¬ c = '>' := fun hh => h (by simp [hh])
    have hA' : '>' ∉ A' := fun hh => h (by simp [hh])
    simp only [List.cons_append, countGt3Aux, hc, if_false, List.append_eq]
    rw [countGt3Aux_gtfree_append hA' X]

/-- Counting across a non-`'>'` separator is additive. -/
theorem countGt3Aux_sep_append {sep : Char} (hsep : sep ≠ '>') (b : Str) :
    ∀ (a : Str) (r : Nat),
      countGt3Aux (a ++ sep :: b) r = countGt3Aux a r + countGt3Aux b 0 := by
  intro a
  induction a with
  | nil =>
    intro r
    simp only [List.nil_append, countGt3Aux, hsep, if_false, List.append_eq]
  | cons c a' ih =>
    intro r
    by_cases hc : c = '>'
    · simp only [List.cons_append, countGt3Aux, hc, if_true, ih, List.append_eq]
    · simp only [List.cons_append, countGt3Aux, hc, if_false, ih, List.append_eq]
      omega

/-- The marker count of a `'\n'`-join is the sum of the line counts. -/
theorem countGt3_joinNL : ∀ lines : List Str,
    countGt3 (joinNL lines) = (lines.map countGt3).sum := by
  intro lines
  induction lines with
  | nil => rfl
  | cons l ls ih =>
    cases ls with
    | nil => simp [joinNL, countGt3]
    | cons l2 ls2 =>
      have hjoin : joinNL (l :: l2 :: ls2) = l ++ '\n' :: joinNL (l2 :: ls2) := rfl
      rw [show countGt3 (joinNL (l :: l2 :: ls2)) =
        countGt3Aux (l ++ '\n' :: joinNL (l2 :: ls2)) 0 from by rw [hjoin]; rfl]
      rw [countGt3Aux_sep_append (by decide) _ l 0]
      simp only [List.map_cons, List.sum_cons]
      rw [show countGt3Aux (joinNL (l2 :: ls2)) 0 = countGt3 (joinNL (l2 :: ls2)) from rfl, ih]
      rfl

/-- If a compound string has count zero, so has its tail part. -/
theorem countGt3Aux_zero_append : ∀ (A X : Str) (r : Nat),
    countGt3Aux (A ++ X) r = 0 → countGt3Aux X 0 = 0 := by
  intro A
  induction A with
  | nil =>
    intro X r h
    exact Nat.le_zero.mp (h ▸ countGt3Aux_mono X 0 r (Nat.zero_le r))
  | cons c A' ih =>
    intro X r h
    by_cases hc : c = '>'
    · simp only [List.cons_append, countGt3Aux, hc, if_true, List.append_eq] at h
      exact ih X _ h
    · simp only [List.cons_append, countGt3Aux, hc, if_false, List.append_eq] at h
      exact ih X 0 (by omega)

/-- A prefix never counts more than the whole. -/
theorem countGt3Aux_prefix_le : ∀ (A X : Str) (r : Nat),
    countGt3Aux A r ≤ countGt3Aux (A ++ X) r := by
  intro A
  induction A with
  | nil => intro X r; exact countGt3Aux_ge X r
  | cons c A' ih =>
    intro X r
    by_cases hc : c = '>'
    · simp only [List.cons_append, countGt3Aux, hc, if_true, List.append_eq]
      exact ih X _
    · simp only [List.cons_append, countGt3Aux, hc, if_false, List.append_eq]
      have := ih X 0
      omega

/-- Substrings of a marker-free string are marker-free. -/
theorem countGt3_infix_zero {s t : Str} (h0 : countGt3 s = 0) (hinf : t <:+: s) :
    countGt3 t = 0 := by
  obtain ⟨u, v, huv⟩ := hinf
  have hassoc : u ++ (t ++ v) = s := by rw [← huv]; simp
  have h1 : countGt3Aux (t ++ v) 0 = 0 := by
    apply countGt3Aux_zero_append u (t ++ v) 0
    rw [hassoc]
    exact h0
  exact Nat.le_zero.mp (h1 ▸ countGt3Aux_prefix_le t v 0)

/-- A `'>'`-free string has no marker. -/
theorem countGt3_gtfree {s : Str} (h : '>' ∉ s) : countGt3 s = 0 := by
  have := countGt3Aux_gtfree_append h []
  simpa [countGt3] using this

/-- Three pending `'>'`s yield exactly one extra marker over a
marker-free remainder structure. -/
theorem countGt3Aux_shift (B : Str) (h0 : countGt3Aux B 0 = 0) :
    ∀ r : Nat, countGt3Aux B (r + 3) = 1 + countGt3Aux B r := by
  induction B with
  | nil => intro r; simp only [countGt3Aux]; omega
  | cons c B' ih =>
    intro r
    by_cases hc : c = '>'
    · simp only [countGt3Aux, hc, if_true] at h0 ⊢
      have h0' : countGt3Aux B' 0 = 0 :=
        Nat.le_zero.mp (h0 ▸ countGt3Aux_mono B' 0 1 (by omega))
      have := ih h0' (r + 1)
      rw [show r + 3 + 1 = r + 1 + 3 from by omega, this]
    · simp only [countGt3Aux, hc, if_false] at h0 ⊢
      omega

/-- The marker count of `A ++ ">>>" ++ B` is exactly one when `A` is
`'>'`-free and `B` is marker-free. -/
theorem countGt3_marker_block {A B : Str} (hA : '>' ∉ A) (hB : countGt3 B = 0) :
    countGt3 (A ++ ('>' :: '>' :: '>' :: B)) = 1 := by
  unfold countGt3
  rw [countGt3Aux_gtfree_append hA]
  show countGt3Aux B (0 + 3) = 1
  rw [countGt3Aux_shift B hB 0, show countGt3Aux B 0 = 0 from hB]

/-- Characters of a replacement scan come from the input or the
replacement text. -/
theorem replaceScanAux_mem (pat rep : Str) (useB : Bool) :
    ∀ (fuel : Nat) (prev : Option Char) (s : Str) (c : Char),
      c ∈ replaceScanAux pat rep useB fuel prev s → c ∈ s ∨ c ∈ rep := by
  intro fuel
  induction fuel with
  | zero => intro prev s c hc; simp [replaceScanAux] at hc
  | succ fuel ih =>
    intro prev s c hc
    cases s with
    | nil => simp [replaceScanAux] at hc
    | cons a cs =>
      rw [replaceScanAux.eq_def] at hc
      dsimp only at hc
      split at hc
      · rcases List.mem_append.mp hc with h | h
        · exact Or.inr h
        · rcases ih _ _ _ h with h2 | h2
          · exact Or.inl (List.mem_of_mem_drop h2)
          · exact Or.inr h2
      · rcases List.mem_cons.mp hc with h | h
        · exact Or.inl (by simp [h])
        · rcases ih _ _ _ h with h2 | h2
          · exact Or.inl (List.mem_cons_of_mem a h2)
          · exact Or.inr h2

/-- Characters of the keyword-substitution fold come from the input
line or from some replacement of the table. -/
theorem foldl_reSubWord_mem :
    ∀ (L : List (Str × Str)) (acc : Str) (c : Char),
      c ∈ L.foldl (fun l p => reSubWord p.1 p.2 l) acc →
      c ∈ acc ∨ ∃ p ∈ L, c ∈ p.2 := by
  intro L
  induction L with
  | nil => intro acc c hc; exact Or.inl hc
  | cons p L2 ih =>
    intro acc c hc
    rw [List.foldl_cons] at hc
    rcases ih _ _ hc with h | h
    · simp only [reSubWord] at h
      rcases replaceScanAux_mem p.1 p.2 true _ _ _ _ h with h2 | h2
      · exact Or.inl h2
      · exact Or.inr ⟨p, List.mem_cons_self p L2, h2⟩
    · obtain ⟨q, hq, hcq⟩ := h
      exact Or.inr ⟨q, List.mem_cons_of_mem p hq, hcq⟩

/-- `line.split("#", 1)` decomposes the line at its first hash. -/
theorem splitFirstHash_eq :
    ∀ (l a b : Str), splitFirstHash l = some (a, b) → l = a ++ '#' :: b := by
  intro l
  induction l with
  | nil => intro a b h; simp [splitFirstHash] at h
  | cons c cs ih =>
    intro a b h
    rw [splitFirstHash.eq_def] at h
    dsimp only at h
    split at h
    · rename_i hc
      simp only [Option.some.injEq, Prod.mk.injEq] at h
      obtain ⟨ha, hb⟩ := h
      subst ha; subst hb; subst hc
      rfl
    · split at h
      · exact absurd h (by simp)
      · rename_i a2 b2 hrec
        simp only [Option.some.injEq, Prod.mk.injEq] at h
        obtain ⟨ha, hb⟩ := h
        subst ha; subst hb
        rw [ih a2 b2 hrec]
        rfl

/-- No replacement in the keyword table is empty or contains `'>'` or a
newline. -/
theorem KEYWORD_MAP_repl_chars :
    ∀ p ∈ KEYWORD_MAP, p.2 ≠ [] ∧ ∀ c ∈ p.2, c ≠ '>' ∧ c ≠ '\n' := by
  decide

/-- Characters of a transpiled line come from the line or from some
replacement of the keyword table. -/
theorem transpileLine_mem (line : Str) (c : Char) (hc : c ∈ transpileLine line) :
    c ∈ line ∨ ∃ p ∈ KEYWORD_MAP, c ∈ p.2 := by
  unfold transpileLine at hc
  split at hc
  · rename_i code comment heq
    have hline := splitFirstHash_eq line code comment heq
    rcases List.mem_append.mp hc with h | h
    · rcases foldl_reSubWord_mem KEYWORD_MAP code c h with h2 | h2
      · exact Or.inl (by rw [hline]; exact List.mem_append_left _ h2)
      · exact Or.inr h2
    · exact Or.inl (by rw [hline]; exact List.mem_append_right _ h)
  · exact foldl_reSubWord_mem KEYWORD_MAP line c hc

/-- Keyword substitution cannot introduce a `'>'`. -/
theorem transpileLine_gtfree {line : Str} (hgt : '>' ∉ line) :
    '>' ∉ transpileLine line := by
  intro hc
  rcases transpileLine_mem line _ hc with h | ⟨p, hp, hcp⟩
  · exact hgt h
  · exact ((KEYWORD_MAP_repl_chars p hp).2 _ hcp).1 (by decide)

/-- Keyword substitution cannot introduce a newline. -/
theorem transpileLine_nlfree {line : Str} (hnl : '\n' ∉ line) :
    '\n' ∉ transpileLine line := by
  intro hc
  rcases transpileLine_mem line _ hc with h | ⟨p, hp, hcp⟩
  · exact hnl h
  · exact ((KEYWORD_MAP_repl_chars p hp).2 _ hcp).2 (by decide)

/-- Characters of a `splitlines` field occur in the string. -/
theorem pySplitlines_mem :
    ∀ (s : Str) (l : Str), l ∈ pySplitlines s → ∀ c ∈ l, c ∈ s := by
  suffices h : ∀ (N : Nat) (s : Str), s.length ≤ N →
      ∀ l ∈ pySplitlines s, ∀ c ∈ l, c ∈ s from
    fun s => h s.length s le_rfl
  intro N
  induction N with
  | zero =>
    intro s hs l hl
    have : s = [] := List.length_eq_zero.mp (Nat.le_zero.mp hs)
    subst this
    simp [pySplitlines] at hl
  | succ N ih =>
    intro s hs l hl c hc
    cases s with
    | nil => simp [pySplitlines] at hl
    | cons a rest =>
      simp only [List.length_cons] at hs
      rw [pySplitlines.eq_def] at hl
      dsimp only at hl
      split at hl
      · split at hl
        · simp at hl; subst hl; simp at hc
        · rename_i d rest2
          split at hl
          · simp only [List.mem_cons] at hl
            rcases hl with hl | hl
            · subst hl; simp at hc
            · exact List.mem_cons_of_mem a (List.mem_cons_of_mem d
                (ih rest2 (by simp_all; omega) l hl c hc))
          · simp only [List.mem_cons] at hl
            rcases hl with hl | hl
            · subst hl; simp at hc
            · exact List.mem_cons_of_mem a (ih (d :: rest2) (by omega) l hl c hc)
      · split at hl
        · simp only [List.mem_cons] at hl
          rcases hl with hl | hl
          · subst hl; simp at hc
          · exact List.mem_cons_of_mem a (ih rest (by omega) l hl c hc)
        · split at hl
          · simp at hl
            subst hl
            simp only [List.mem_singleton] at hc
            subst hc
            simp
          · rename_i h0 t0 hrec
            simp only [List.mem_cons] at hl
            rcases hl with hl | hl
            · subst hl
              rcases List.mem_cons.mp hc with hca | hch
              · subst hca; simp
              · exact List.mem_cons_of_mem a
                  (ih rest (by omega) h0 (by rw [hrec]; simp) c hch)
            · exact List.mem_cons_of_mem a
                (ih rest (by omega) l (by rw [hrec]; simp [hl]) c hc)

/-- Characters of a newline-join are newlines or characters of some
joined line. -/
theorem joinNL_mem : ∀ (ls : List Str) (c : Char), c ∈ joinNL ls →
    c = '\n' ∨ ∃ l ∈ ls, c ∈ l := by
  intro ls
  induction ls with
  | nil => intro c hc; simp [joinNL] at hc
  | cons l ls2 ih =>
    intro c hc
    cases ls2 with
    | nil => exact Or.inr ⟨l, by simp, by simpa [joinNL] using hc⟩
    | cons l2 ls3 =>
      rw [show joinNL (l :: l2 :: ls3) = l ++ '\n' :: joinNL (l2 :: ls3) from rfl] at hc
      rcases List.mem_append.mp hc with h | h
      · exact Or.inr ⟨l, by simp, h⟩
      · rcases List.mem_cons.mp h with h | h
        · exact Or.inl h
        · rcases ih c h with h2 | ⟨l3, hl3, hcl3⟩
          · exact Or.inl h2
          · exact Or.inr ⟨l3, by simp [hl3], hcl3⟩

/-- Characters of a matched lazy prompt group come from the scanned
text or the accumulator. -/
theorem tryPrompt_mem (q : Char) :
    ∀ (s acc p : Str), tryPrompt q acc s = some p →
      ∀ c ∈ p, c ∈ acc ∨ c ∈ s := by
  intro s
  induction s with
  | nil => intro acc p h; simp [tryPrompt] at h
  | cons a rest ih =>
    intro acc p h c hc
    rw [tryPrompt.eq_def] at h
    dsimp only at h
    split at h
    · exact absurd h (by simp)
    · split at h
      · cases h
        exact Or.inl hc
      · rcases ih (acc ++ [a]) p h c hc with h2 | h2
        · rcases List.mem_append.mp h2 with h3 | h3
          · exact Or.inl h3
          · simp only [List.mem_singleton] at h3
            subst h3
            exact Or.inr (by simp)
        · exact Or.inr (List.mem_cons_of_mem a h2)

/-- An input-pattern match at the head yields a quote character and a
prompt drawn from the text. -/
theorem matchInputAt_some (s : Str) (q : Char) (p : Str)
    (h : matchInputAt s = some (q, p)) :
    (q = '"' ∨ q = '\x27') ∧ ∀ c ∈ p, c ∈ s := by
  unfold matchInputAt at h
  split at h
  · split at h
    · rename_i r2 heq2
      split at h
      · rename_i q2 r4 heq4
        split at h
        · rename_i hq2
          simp only [Option.map_eq_some', Prod.mk.injEq] at h
          obtain ⟨p2, hp2, hq2eq, hpeq⟩ := h
          subst hq2eq
          subst hpeq
          have hsub4 : ∀ c, c ∈ r4 → c ∈ s := by
            intro c hc
            have h1 : c ∈ q2 :: r4 := List.mem_cons_of_mem q2 hc
            rw [← heq4] at h1
            have h2 : c ∈ r2 := (List.dropWhile_suffix isPySpace).subset h1
            have h3 : c ∈ '(' :: r2 := List.mem_cons_of_mem _ h2
            rw [← heq2] at h3
            have h4 : c ∈ s.drop 5 := (List.dropWhile_suffix isPySpace).subset h3
            exact List.mem_of_mem_drop h4
          refine ⟨by simpa using hq2, ?_⟩
          intro c hc
          rcases tryPrompt_mem q2 r4 [] p2 hp2 c hc with h2 | h2
          · simp at h2
          · exact hsub4 c h2
        · exact absurd h (by simp)
      · exact absurd h (by simp)
    · exact absurd h (by simp)
  · exact absurd h (by simp)

/-- The leftmost input-pattern match yields a quote character and a
prompt drawn from the line. -/
theorem findInputMatch_some :
    ∀ (s : Str) (q : Char) (p : Str), findInputMatch s = some (q, p) →
      (q = '"' ∨ q = '\x27') ∧ ∀ c ∈ p, c ∈ s := by
  intro s
  induction s with
  | nil => intro q p h; simp [findInputMatch] at h
  | cons a cs ih =>
    intro q p h
    rw [findInputMatch.eq_def] at h
    dsimp only at h
    split at h
    · rename_i r hr
      cases h
      exact matchInputAt_some (a :: cs) q p hr
    · obtain ⟨h1, h2⟩ := ih q p h
      exact ⟨h1, fun c hc => List.mem_cons_of_mem a (h2 c hc)⟩

/-- The prompt `print` line of a matched input call counts exactly one
marker in non-challenge mode. -/
theorem print_line_count (indent prompt : Str) (q : Char)
    (hind : '>' ∉ indent) (hq : q ≠ '>') (hpr : '>' ∉ prompt) :
    countGt3 (indent ++ "print(".toList ++ q :: (promptMarker false ++ prompt ++ [q, ')'])) = 1 := by
  have hm : promptMarker false = ['>', '>', '>'] := by decide
  have hshape : indent ++ "print(".toList ++ q :: (promptMarker false ++ prompt ++ [q, ')'])
      = (indent ++ "print(".toList ++ [q]) ++ ('>' :: '>' :: '>' :: (prompt ++ [q, ')'])) := by
    rw [hm]
    simp
  rw [hshape]
  apply countGt3_marker_block
  · intro hmem
    rcases List.mem_append.mp hmem with h | h
    · rcases List.mem_append.mp h with h2 | h2
      · exact hind h2
      · exact absurd h2 (by decide)
    · simp only [List.mem_singleton] at h
      exact hq h.symm
  · apply countGt3_gtfree
    intro hmem
    rcases List.mem_append.mp hmem with h | h
    · exact hpr h
    · rcases List.mem_cons.mp h with h2 | h2
      · exact hq h2.symm
      · exact absurd h2 (by decide)

/-- The prompt `print` line of a matched input call counts no marker in
challenge mode. -/
theorem print_line_count_ch (indent prompt : Str) (q : Char)
    (hind : '>' ∉ indent) (hq : q ≠ '>') (hpr : '>' ∉ prompt) :
    countGt3 (indent ++ "print(".toList ++ q :: (promptMarker true ++ prompt ++ [q, ')'])) = 0 := by
  apply countGt3_gtfree
  intro hmem
  have hm : promptMarker true = [] := rfl
  rw [hm] at hmem
  rcases List.mem_append.mp hmem with h | h
  · rcases List.mem_append.mp h with h2 | h2
    · exact hind h2
    · exact absurd h2 (by decide)
  · rcases List.mem_cons.mp h with h2 | h2
    · exact hq h2.symm
    · rw [List.nil_append] at h2
      rcases List.mem_append.mp h2 with h3 | h3
      · exact hpr h3
      · rcases List.mem_cons.mp h3 with h4 | h4
        · exact hq h4.symm
        · exact absurd h4 (by decide)

/-- The rewritten input line of a `'>'`-free line counts no marker. -/
theorem new_line_count (line pat : Str) (hline : '>' ∉ line) :
    countGt3 (pyReplace line pat inputEmpty) = 0 := by
  apply countGt3_gtfree
  intro hc
  simp only [pyReplace] at hc
  rcases replaceScanAux_mem pat inputEmpty false _ _ _ _ hc with h | h
  · exact hline h
  · exact absurd h (by decide)

/-- Marker accounting for the per-line loop of `_convert_input_calls`
over `'>'`-free lines: zero markers in challenge mode, one per matched
line otherwise. -/
theorem convertPieces_count (m : LineMap) (ch : Bool) :
    ∀ L : List (Nat × Str), (∀ p ∈ L, '>' ∉ p.2) →
      (((convertPieces m ch L).map Prod.fst).map countGt3).sum =
        if ch then 0 else L.countP (fun p => (findInputMatch p.2).isSome) := by
  intro L
  induction L with
  | nil => intro hL; cases ch <;> simp [convertPieces]
  | cons p rest ih =>
    intro hL
    obtain ⟨n, line⟩ := p
    have hline : '>' ∉ line := hL (n, line) (List.mem_cons_self _ _)
    have hrest := ih (fun p hp => hL p (List.mem_cons_of_mem _ hp))
    cases hfind : findInputMatch line with
    | none =>
      simp only [convertPieces, hfind]
      simp only [List.map_cons, List.sum_cons]
      rw [countGt3_gtfree hline, hrest]
      cases ch <;> simp [List.countP_cons, hfind]
    | some qp =>
      obtain ⟨q, prompt⟩ := qp
      obtain ⟨hq, hps⟩ := findInputMatch_some line q prompt hfind
      have hq2 : q ≠ '>' := by rcases hq with h | h <;> (subst h; decide)
      have hind : '>' ∉ line.takeWhile isPySpace :=
        fun h => hline ((List.takeWhile_prefix _).subset h)
      have hpr : '>' ∉ prompt := fun h => hline (hps _ h)
      simp only [convertPieces, hfind]
      simp only [List.map_cons, List.sum_cons]
      rw [new_line_count line _ hline, hrest]
      cases ch
      · rw [print_line_count _ _ _ hind hq2 hpr]
        simp [List.countP_cons, hfind]
        omega
      · rw [print_line_count_ch _ _ _ hind hq2 hpr]
        simp

/-- `enumerate(lines, 1)` projects back to the lines. -/
theorem enum1_map_snd (l : List Str) : (enum1 l).map Prod.snd = l := by
  unfold enum1
  rw [List.map_map]
  have h : (Prod.snd ∘ fun p : Nat × Str => (p.1 + 1, p.2)) = Prod.snd := rfl
  rw [h, List.enum_map_snd]

/-- Counting a property of the payloads through `enumerate(lines, 1)`. -/
theorem enum1_countP (q : Str → Bool) (l : List Str) :
    (enum1 l).countP (fun p => q p.2) = l.countP q := by
  conv_rhs => rw [← enum1_map_snd l]
  rw [List.countP_map]
  rfl

/-- Payloads of `enumerate(lines, 1)` entries are lines. -/
theorem enum1_mem_snd {l : List Str} {p : Nat × Str} (hp : p ∈ enum1 l) : p.2 ∈ l := by
  have h : p.2 ∈ (enum1 l).map Prod.snd := List.mem_map_of_mem Prod.snd hp
  rwa [enum1_map_snd] at h

/-- The base transpilation targets are the transpiled source lines. -/
theorem transpile_base_lines_fst (src : Str) :
    (transpile_base_lines src).map Prod.fst = (pySplitlines src).map transpileLine := by
  unfold transpile_base_lines
  rw [List.map_map]
  have h : (Prod.fst ∘ fun p : Nat × Str => (transpileLine p.2, p.1))
      = transpileLine ∘ Prod.snd := rfl
  rw [h, ← List.map_map, enum1_map_snd]

/-- Marker accounting for `_convert_input_calls` with debugging off. -/
theorem convert_input_calls_count (code : Str) (m : LineMap) (ch : Bool)
    (h : ∀ p ∈ enum1 (pySplitNL code), '>' ∉ p.2) :
    countGt3 (convert_input_calls code m false ch).1 =
      if ch then 0 else (pySplitNL code).countP (fun l => (findInputMatch l).isSome) := by
  unfold convert_input_calls
  simp only [Bool.false_eq_true, if_false]
  rw [countGt3_joinNL, convertPieces_count m ch _ h]
  cases ch
  · simp only [Bool.false_eq_true, if_false]
    rw [enum1_countP (fun l => (findInputMatch l).isSome) (pySplitNL code)]
  · rfl

/-- Marker accounting for `transpile_code` with debugging off over
`'>'`-free sources: zero in challenge mode, one per matched input line
otherwise. -/
theorem transpile_code_count (src : Str) (hgt : '>' ∉ src) (ch : Bool) :
    ∀ t m, transpile_code src false ch = .ok (t, m) →
      countGt3 t = if ch then 0 else inputLineCount ((pySplitlines src).map transpileLine) := by
  intro t m h
  unfold transpile_code at h
  split at h
  · exact absurd h (by simp)
  · dsimp only at h
    simp only [Bool.false_eq_true, if_false] at h
    rw [transpile_base_lines_fst src] at h
    injection h with h2
    have htl_gt : ∀ l ∈ (pySplitlines src).map transpileLine, '>' ∉ l := by
      intro l hl
      obtain ⟨l0, hl0, rfl⟩ := List.mem_map.mp hl
      exact transpileLine_gtfree (fun hc => hgt (pySplitlines_mem src l0 hl0 _ hc))
    have htl_nl : ∀ l ∈ (pySplitlines src).map transpileLine, '\n' ∉ l := by
      intro l hl
      obtain ⟨l0, hl0, rfl⟩ := List.mem_map.mp hl
      exact transpileLine_nlfree (pySplitlines_no_newline src l0 hl0).1
    have hcode_gt : '>' ∉ joinNL ((pySplitlines src).map transpileLine) := by
      intro hc
      rcases joinNL_mem _ _ hc with hnl | ⟨l, hl, hcl⟩
      · exact absurd hnl (by decide)
      · exact htl_gt l hl hcl
    have hprem : ∀ p ∈ enum1 (pySplitNL (joinNL ((pySplitlines src).map transpileLine))),
        '>' ∉ p.2 := by
      intro p hp hc
      have hmem := enum1_mem_snd hp
      have hinf := splitOnCh_mem_infix '\n' _ _ hmem
      exact hcode_gt (hinf.subset hc)
    have ht : t = (convert_input_calls (joinNL ((pySplitlines src).map transpileLine))
        (mkMap (transpile_base_lines src)) false ch).1 := by
      rw [h2]
    rw [ht, convert_input_calls_count _ _ ch hprem]
    cases ch
    · simp only [Bool.false_eq_true, if_false]
      by_cases htl : (pySplitlines src).map transpileLine = []
      · rw [htl]
        decide
      · rw [pySplitNL_joinNL _ htl htl_nl]
        rfl
    · rfl

/-- C2 (amended): over sources containing no `'>'` character and with
debugging off, challenge-mode transpilation — in particular the
grader's `transpile_code(user_code, challenge_mode=True)` call — emits
no `>>>` marker, and non-challenge transpilation emits exactly one
`>>>` marker per target line with a literal-string-prompt input match
(not one per input call: only the leftmost match of each line is
rewritten). -/
theorem input_marker_occurrences (src : Str) (hgt : '>' ∉ src) :
    (∀ t m, transpile_code src false true = .ok (t, m) → countGt3 t = 0) ∧
    (∀ t m, transpile_code src false false = .ok (t, m) →
      countGt3 t = inputLineCount ((pySplitlines src).map transpileLine)) ∧
    (∀ t m, graderTranspile src = .ok (t, m) → countGt3 t = 0) := by
  refine ⟨fun t m h => ?_, fun t m h => ?_, fun t m h => ?_⟩
  · simpa using transpile_code_count src hgt true t m h
  · simpa using transpile_code_count src hgt false t m h
  · simpa using transpile_code_count src hgt true t m h

/-- C2 counterexample to the original claim: in challenge mode the
target of `print(">>>")` still contains one `>>>` occurrence — the
markers of the source text survive transpilation. -/
theorem challenge_mode_marker_cex :
    transpile_code cexSrcC2 false true = .ok (cexSrcC2, [(1, 1)]) ∧
    countGt3 cexSrcC2 = 1 := by
  constructor
  · decide
  · decide

/-- C2 witness: the marker-count theorem applied to the one-line
program `x = input("igama")`, whose non-challenge target carries
exactly one `>>>` marker. -/
theorem input_marker_occurrences_witness :
    countGt3 wTgtC2 = inputLineCount ((pySplitlines wSrcC2).map transpileLine) ∧
    inputLineCount ((pySplitlines wSrcC2).map transpileLine) = 1 :=
  ⟨(input_marker_occurrences wSrcC2 (by decide)).2.1 wTgtC2 [(1, 1), (2, 1)] (by decide),
   by decide⟩

/-- `range'` with step 1 is non-decreasing. -/
theorem chain_le_range2 : ∀ (n s : Nat), List.Chain' (· ≤ ·) (List.range' s n) := by
  intro n
  induction n with
  | zero => intro s; simp [List.range']
  | succ n ih =>
    intro s
    cases n with
    | zero => simp [List.range']
    | succ n2 =>
      rw [List.range']
      rw [List.range']
      exact List.Chain'.cons (by omega) (by rw [← List.range']; exact ih (s + 1))

/-- `enumerate(lines, 1)` as a zip with `range'`. -/
theorem enum1_eq_zip (l : List Str) : enum1 l = (List.range' 1 l.length).zip l := by
  unfold enum1
  rw [List.enum_eq_zip_range, List.range'_eq_map_range]
  rw [List.zip_map_left]
  apply List.map_congr_left
  intro p _
  cases p
  simp [Prod.map, Nat.add_comm]

/-- Lookup in a `range'`-keyed zip hits the positional value. -/
theorem lookup_range_zip : ∀ (vs : List Nat) (s i : Nat), s ≤ i →
    i < s + vs.length →
    List.lookup i ((List.range' s vs.length).zip vs) = vs.get? (i - s) := by
  intro vs
  induction vs with
  | nil => intro s i h1 h2; simp at h2; omega
  | cons v vs2 ih =>
    intro s i h1 h2
    simp only [List.length_cons, List.range', List.zip_cons_cons]
    by_cases hi : i = s
    · subst hi
      simp [List.lookup]
    · have hbeq : (i == s) = false := by simp [hi]
      simp only [List.lookup, hbeq]
      have h3 : s + 1 ≤ i := by omega
      rw [ih (s + 1) i h3 (by simp only [List.length_cons] at h2; omega)]
      have h4 : i - s = (i - (s + 1)) + 1 := by omega
      rw [h4]
      rfl

/-- Keys of `mkMap` are `1..len` in order. -/
theorem mkMap_map_fst (ps : List (Str × Nat)) :
    (mkMap ps).map Prod.fst = List.range' 1 ps.length := by
  unfold mkMap
  apply List.map_fst_zip
  simp

/-- Values of `mkMap` are the recorded source lines in order. -/
theorem mkMap_map_snd (ps : List (Str × Nat)) :
    (mkMap ps).map Prod.snd = ps.map Prod.snd := by
  unfold mkMap
  apply List.map_snd_zip
  simp

/-- `mkMap` has one entry per piece. -/
theorem mkMap_length (ps : List (Str × Nat)) : (mkMap ps).length = ps.length := by
  unfold mkMap
  simp

/-- Lookup in `mkMap ps` is the positional recorded source line. -/
theorem mkMap_lookup (ps : List (Str × Nat)) (i : Nat) (h1 : 1 ≤ i)
    (h2 : i < 1 + ps.length) :
    List.lookup i (mkMap ps) = (ps.map Prod.snd).get? (i - 1) := by
  unfold mkMap
  rw [show ps.length = (ps.map Prod.snd).length from by simp]
  exact lookup_range_zip (ps.map Prod.snd) 1 i h1 (by simp; omega)

/-- `existing_mapping.get(i, i)` over the key range returns a recorded
source line. -/
theorem dget_mkMap_mem (ps : List (Str × Nat)) (i : Nat) (h1 : 1 ≤ i)
    (h2 : i ≤ ps.length) : dget (mkMap ps) i ∈ ps.map Prod.snd := by
  unfold dget
  rw [mkMap_lookup ps i h1 (by omega)]
  have hlt : i - 1 < (ps.map Prod.snd).length := by simp; omega
  rw [List.get?_eq_get hlt]
  simp only [Option.getD_some]
  exact List.get_mem _ _ _

/-- Mapping `existing_mapping.get` over `range'` recovers the values. -/
theorem range_map_dget (vs : List Nat) : ∀ (m : List (Nat × Nat)) (s : Nat),
    (∀ i, s ≤ i → i < s + vs.length → List.lookup i m = vs.get? (i - s)) →
    (List.range' s vs.length).map (fun i => dget m i) = vs := by
  induction vs with
  | nil => intro m s _; simp [List.range']
  | cons v vs2 ih =>
    intro m s hm
    simp only [List.length_cons, List.range', List.map_cons]
    have h0 : dget m s = v := by
      unfold dget
      rw [hm s le_rfl (by simp only [List.length_cons]; omega)]
      simp
    rw [h0]
    have harg : ∀ i, s + 1 ≤ i → i < s + 1 + vs2.length →
        List.lookup i m = vs2.get? (i - (s + 1)) := by
      intro i hi1 hi2
      rw [hm i (by omega) (by simp only [List.length_cons]; omega)]
      have h4 : i - s = (i - (s + 1)) + 1 := by omega
      rw [h4]
      rfl
    rw [ih m (s + 1) harg]

/-- Querying `mkMap ps` along `enumerate(lines, 1)` over as many lines
as pieces returns the recorded source lines in order. -/
theorem enum1_dget_map (ps : List (Str × Nat)) (ls : List Str)
    (hlen : ls.length = ps.length) :
    (enum1 ls).map (fun p => dget (mkMap ps) p.1) = ps.map Prod.snd := by
  rw [enum1_eq_zip]
  have hz : ((List.range' 1 ls.length).zip ls).map (fun p => dget (mkMap ps) p.1)
      = (List.range' 1 ls.length).map (fun i => dget (mkMap ps) i) := by
    rw [show (fun p : Nat × Str => dget (mkMap ps) p.1)
        = (fun i => dget (mkMap ps) i) ∘ Prod.fst from rfl]
    rw [← List.map_map, List.map_fst_zip _ _ (by simp [hlen])]
  rw [hz, hlen, show ps.length = (ps.map Prod.snd).length from by simp]
  apply range_map_dget
  intro i hi1 hi2
  apply mkMap_lookup ps i hi1
  simp only [List.length_map] at hi2
  omega

/-- The recorded source lines of the base transpilation are `1..N`. -/
theorem transpile_base_lines_snd (src : Str) :
    (transpile_base_lines src).map Prod.snd =
      List.range' 1 (pySplitlines src).length := by
  unfold transpile_base_lines
  rw [List.map_map]
  have h : (Prod.snd ∘ fun p : Nat × Str => (transpileLine p.2, p.1))
      = Prod.fst := rfl
  rw [h, enum1_eq_zip]
  apply List.map_fst_zip
  simp

/-- `enumerate(l, 1)` is empty exactly for empty `l`. -/
theorem enum1_eq_nil {l : List Str} : enum1 l = [] ↔ l = [] := by
  unfold enum1
  simp

/-- Decimal digits are not newlines. -/
theorem isDigitCh_ne_nl {c : Char} (h : isDigitCh c = true) : c ≠ '\n' := by
  intro heq
  subst heq
  exact absurd h (by decide)

/-- The `D-D-D:LINE` marker statement contains no newline. -/
theorem nl_not_mem_lineMarkerLine (v : Nat) : '\n' ∉ lineMarkerLine v := by
  intro h
  unfold lineMarkerLine at h
  rcases List.mem_append.mp h with h2 | h2
  · rcases List.mem_append.mp h2 with h3 | h3
    · exact absurd h3 (by decide)
    · exact isDigitCh_ne_nl (natToStr_digits v _ h3) rfl
  · exact absurd h2 (by decide)

/-- Indentation padding contains no newline. -/
theorem nl_not_mem_replicate (n : Nat) : '\n' ∉ List.replicate n ' ' := by
  intro h
  have := (List.mem_replicate.mp h).2
  exact absurd this (by decide)

/-- Facts about one instrumented line: the produced pieces are nonempty,
all carry the remapped source line, and contain no newline. -/
theorem debugPiecesLine_facts (m : LineMap) (i : Nat) (line : Str)
    (hnl : '\n' ∉ line) :
    ∀ qs, debugPiecesLine m i line = .ok qs →
      qs ≠ [] ∧ (∀ q ∈ qs, q.2 = dget m i) ∧ (∀ q ∈ qs, '\n' ∉ q.1) := by
  intro qs h
  unfold debugPiecesLine at h
  dsimp only at h
  split at h
  · cases h
    exact ⟨by simp, by intro q hq; simp at hq; rw [hq], by
      intro q hq; simp at hq; rw [hq]; exact hnl⟩
  · split at h
    · exact absurd h (by simp)
    · cases h
      exact ⟨by simp, by intro q hq; simp at hq; rw [hq], by
        intro q hq; simp at hq; rw [hq]; exact hnl⟩
    · have hmark : '\n' ∉ List.replicate (line.length - (pyLstrip line).length) ' '
          ++ lineMarkerLine (dget m i) := by
        intro hc
        rcases List.mem_append.mp hc with h2 | h2
        · exact nl_not_mem_replicate _ h2
        · exact nl_not_mem_lineMarkerLine _ h2
      have hpad : ∀ tail : Str, '\n' ∉ tail →
          '\n' ∉ List.replicate (line.length - (pyLstrip line).length) ' ' ++ tail := by
        intro tail htail hc
        rcases List.mem_append.mp hc with h2 | h2
        · exact nl_not_mem_replicate _ h2
        · exact htail h2
      split at h
      · cases h
        refine ⟨by simp, ?_, ?_⟩
        · intro q hq
          rcases List.mem_cons.mp hq with h2 | h2
          · rw [h2]
          · simp at h2; rw [h2]
        · intro q hq
          rcases List.mem_cons.mp hq with h2 | h2
          · rw [h2]; exact hmark
          · simp at h2; rw [h2]; exact hnl
      · cases h
        refine ⟨by simp, ?_, ?_⟩
        · intro q hq
          simp only [List.append_assoc, List.cons_append, List.nil_append,
            List.mem_cons, List.mem_append, List.not_mem_nil, or_false] at hq
          rcases hq with h2 | h2 | h2 | h2 | h2 <;> rw [h2]
        · intro q hq
          simp only [List.append_assoc, List.cons_append, List.nil_append,
            List.mem_cons, List.mem_append, List.not_mem_nil, or_false] at hq
          rcases hq with h2 | h2 | h2 | h2 | h2 <;> rw [h2]
          · exact hmark
          · exact hnl
          · exact hpad _ (by decide)
          · exact hpad _ (by decide)
          · exact hpad _ (by decide)

/-- A constant list is a `≤`-chain. -/
theorem chain_const {c : Nat} : ∀ l : List Nat, (∀ x ∈ l, x = c) →
    List.Chain' (· ≤ ·) l := by
  intro l
  induction l with
  | nil => intro _; simp
  | cons a l2 ih =>
    intro hl
    cases l2 with
    | nil => simp
    | cons b l3 =>
      refine List.Chain'.cons ?_ (ih ?_)
      · rw [hl a (by simp), hl b (by simp)]
      · intro x hx
        exact hl x (List.mem_cons_of_mem a hx)

/-- Facts about the instrumentation loop: piece values are remapped
source lines of input lines, pieces carry no newline, emptiness is
preserved, chains of remapped values survive, and the first piece
belongs to the first line. -/
theorem debugPieces_facts (m : LineMap) :
    ∀ (L : List (Nat × Str)) (ps : List (Str × Nat)),
    debugPieces m L = .ok ps →
    (∀ p ∈ L, '\n' ∉ p.2) →
    (∀ q ∈ ps, '\n' ∉ q.1) ∧
    (ps = [] ↔ L = []) ∧
    (List.Chain' (· ≤ ·) (L.map (fun p => dget m p.1)) →
      List.Chain' (· ≤ ·) (ps.map Prod.snd)) ∧
    (ps.map Prod.snd).head? = (L.map (fun p => dget m p.1)).head? ∧
    (∀ q ∈ ps, ∃ p ∈ L, q.2 = dget m p.1) := by
  intro L
  induction L with
  | nil =>
    intro ps h _
    rw [debugPieces] at h
    cases h
    simp
  | cons hd rest ih =>
    intro ps h hnl
    obtain ⟨i, line⟩ := hd
    rw [debugPieces] at h
    split at h
    · exact absurd h (by simp)
    · rename_i qs hqs
      split at h
      · exact absurd h (by simp)
      · rename_i tail htail
        cases h
        obtain ⟨hqne, hqval, hqnl⟩ := debugPiecesLine_facts m i line
          (hnl (i, line) (List.mem_cons_self _ _)) qs hqs
        obtain ⟨ihnl, ihemp, ihch, ihhd, ihprov⟩ := ih tail htail
          (fun p hp => hnl p (List.mem_cons_of_mem _ hp))
        have hqsne : qs.map Prod.snd ≠ [] := by
          intro hq
          exact hqne (List.map_eq_nil_iff.mp hq)
        refine ⟨?_, ?_, ?_, ?_, ?_⟩
        · intro q hq
          rcases List.mem_append.mp hq with h2 | h2
          · exact hqnl q h2
          · exact ihnl q h2
        · constructor
          · intro hap
            exact absurd (List.append_eq_nil.mp hap).1 hqne
          · intro hcons
            exact absurd hcons (by simp)
        · intro hch
          rw [List.map_append]
          rw [List.chain'_append]
          have hch2 : List.Chain' (· ≤ ·)
              (dget m i :: rest.map (fun p => dget m p.1)) := by
            simpa using hch
          refine ⟨chain_const (c := dget m i) _ ?_, ihch hch2.tail, ?_⟩
          · intro x hx
            obtain ⟨q, hq, rfl⟩ := List.mem_map.mp hx
            exact hqval q hq
          · intro x hx y hy
            have hxv : x = dget m i := by
              have hxm := List.mem_of_mem_getLast? hx
              obtain ⟨q, hq, rfl⟩ := List.mem_map.mp hxm
              exact hqval q hq
            cases rest with
            | nil =>
              have htnil : tail = [] := ihemp.mpr rfl
              rw [htnil] at hy
              simp at hy
            | cons p2 rest2 =>
              have h3 : (tail.map Prod.snd).head? = some (dget m p2.1) := by
                rw [ihhd]
                simp
              rw [h3] at hy
              have hyv : dget m p2.1 = y := by
                have h5 := Option.mem_def.mp hy
                injection h5
              rw [hxv, ← hyv]
              have h4 : List.Chain' (· ≤ ·)
                  (dget m i :: dget m p2.1 :: rest2.map (fun p => dget m p.1)) := by
                simpa using hch
              exact (List.chain'_cons.mp h4).1
        · rw [List.map_append]
          cases hq0 : qs.map Prod.snd with
          | nil => exact absurd hq0 hqsne
          | cons q0 qt =>
            simp only [List.cons_append, List.head?_cons, List.map_cons]
            have hq0m : q0 ∈ qs.map Prod.snd := by rw [hq0]; simp
            obtain ⟨q, hq, rfl⟩ := List.mem_map.mp hq0m
            rw [hqval q hq]
        · intro q hq
          rcases List.mem_append.mp hq with h2 | h2
          · exact ⟨(i, line), List.mem_cons_self _ _, hqval q h2⟩
          · obtain ⟨p, hp, hval⟩ := ihprov q h2
            exact ⟨p, List.mem_cons_of_mem _ hp, hval⟩

/-- The prompt marker never contains a newline. -/
theorem nl_not_mem_promptMarker (ch : Bool) : '\n' ∉ promptMarker ch := by
  cases ch <;> decide

/-- Facts about the input-call rewriting loop: pieces carry no newline,
emptiness is preserved, chains of remapped values survive, and the
first piece belongs to the first line. -/
theorem convertPieces_facts (m : LineMap) (ch : Bool) :
    ∀ L : List (Nat × Str), (∀ p ∈ L, '\n' ∉ p.2) →
      (∀ q ∈ convertPieces m ch L, '\n' ∉ q.1) ∧
      (convertPieces m ch L = [] ↔ L = []) ∧
      (List.Chain' (· ≤ ·) (L.map (fun p => dget m p.1)) →
        List.Chain' (· ≤ ·) ((convertPieces m ch L).map Prod.snd)) ∧
      ((convertPieces m ch L).map Prod.snd).head?
        = (L.map (fun p => dget m p.1)).head? ∧
      (∀ q ∈ convertPieces m ch L, ∃ p ∈ L, q.2 = dget m p.1) := by
  intro L
  induction L with
  | nil =>
    intro _
    simp [convertPieces]
  | cons hd rest ih =>
    intro hnl
    obtain ⟨n, line⟩ := hd
    have hline : '\n' ∉ line := hnl (n, line) (List.mem_cons_self _ _)
    obtain ⟨ihnl, ihemp, ihch, ihhd, ihprov⟩ :=
      ih (fun p hp => hnl p (List.mem_cons_of_mem _ hp))
    have hbound : ∀ (blk : List (Str × Nat)), blk ≠ [] →
        (∀ q ∈ blk, q.2 = dget m n) →
        (∀ q ∈ blk, '\n' ∉ q.1) →
        convertPieces m ch ((n, line) :: rest) = blk ++ convertPieces m ch rest →
        (∀ q ∈ convertPieces m ch ((n, line) :: rest), '\n' ∉ q.1) ∧
        (convertPieces m ch ((n, line) :: rest) = [] ↔ (n, line) :: rest = []) ∧
        (List.Chain' (· ≤ ·) (((n, line) :: rest).map (fun p => dget m p.1)) →
          List.Chain' (· ≤ ·) ((convertPieces m ch ((n, line) :: rest)).map Prod.snd)) ∧
        ((convertPieces m ch ((n, line) :: rest)).map Prod.snd).head?
          = (((n, line) :: rest).map (fun p => dget m p.1)).head? ∧
        (∀ q ∈ convertPieces m ch ((n, line) :: rest),
          ∃ p ∈ (n, line) :: rest, q.2 = dget m p.1) := by
      intro blk hbne hbval hbnl heq
      have hbsne : blk.map Prod.snd ≠ [] := by
        intro hb
        exact hbne (List.map_eq_nil_iff.mp hb)
      rw [heq]
      refine ⟨?_, ?_, ?_, ?_, ?_⟩
      · intro q hq
        rcases List.mem_append.mp hq with h2 | h2
        · exact hbnl q h2
        · exact ihnl q h2
      · constructor
        · intro hap
          exact absurd (List.append_eq_nil.mp hap).1 hbne
        · intro hcons
          exact absurd hcons (by simp)
      · intro hch
        have hch2 : List.Chain' (· ≤ ·)
            (dget m n :: rest.map (fun p => dget m p.1)) := by
          simpa using hch
        rw [List.map_append, List.chain'_append]
        refine ⟨chain_const (c := dget m n) _ ?_, ihch hch2.tail, ?_⟩
        · intro x hx
          obtain ⟨q, hq, rfl⟩ := List.mem_map.mp hx
          exact hbval q hq
        · intro x hx y hy
          have hxv : x = dget m n := by
            have hxm := List.mem_of_mem_getLast? hx
            obtain ⟨q, hq, rfl⟩ := List.mem_map.mp hxm
            exact hbval q hq
          cases rest with
          | nil =>
            have htnil : convertPieces m ch [] = [] := by simp [convertPieces]
            rw [htnil] at hy
            simp at hy
          | cons p2 rest2 =>
            have h3 : ((convertPieces m ch (p2 :: rest2)).map Prod.snd).head?
                = some (dget m p2.1) := by
              rw [ihhd]
              simp
            rw [h3] at hy
            have hyv : dget m p2.1 = y := by
              have h5 := Option.mem_def.mp hy
              injection h5
            rw [hxv, ← hyv]
            exact (List.chain'_cons.mp (by simpa using hch)).1
      · rw [List.map_append]
        cases hb0 : blk.map Prod.snd with
        | nil => exact absurd hb0 hbsne
        | cons b0 bt =>
          simp only [List.cons_append, List.head?_cons, List.map_cons]
          have hb0m : b0 ∈ blk.map Prod.snd := by rw [hb0]; simp
          obtain ⟨q, hq, rfl⟩ := List.mem_map.mp hb0m
          rw [hbval q hq]
      · intro q hq
        rcases List.mem_append.mp hq with h2 | h2
        · exact ⟨(n, line), List.mem_cons_self _ _, hbval q h2⟩
        · obtain ⟨p, hp, hval⟩ := ihprov q h2
          exact ⟨p, List.mem_cons_of_mem _ hp, hval⟩
    cases hfind : findInputMatch line with
    | none =>
      refine hbound [(line, dget m n)] (by simp) (by simp) ?_ ?_
      · intro q hq
        simp at hq
        rw [hq]
        exact hline
      · simp only [convertPieces, hfind]
        rfl
    | some qp =>
      obtain ⟨q, prompt⟩ := qp
      obtain ⟨hqc, hps⟩ := findInputMatch_some line q prompt hfind
      have hnlq : q ≠ '\n' := by rcases hqc with h | h <;> (subst h; decide)
      refine hbound [(line.takeWhile isPySpace ++ "print(".toList
          ++ q :: (promptMarker ch ++ prompt ++ [q, ')']), dget m n),
        (pyReplace line ("input(".toList ++ q :: (prompt ++ [q, ')'])) inputEmpty,
          dget m n)] (by simp) (by simp) ?_ ?_
      · intro p hp
        rcases List.mem_cons.mp hp with h2 | h2
        · rw [h2]
          intro hc
          rcases List.mem_append.mp hc with h3 | h3
          · rcases List.mem_append.mp h3 with h4 | h4
            · exact hline ((List.takeWhile_prefix _).subset h4)
            · exact absurd h4 (by decide)
          · rcases List.mem_cons.mp h3 with h4 | h4
            · exact hnlq h4.symm
            · rcases List.mem_append.mp h4 with h5 | h5
              · rcases List.mem_append.mp h5 with h6 | h6
                · exact nl_not_mem_promptMarker ch h6
                · exact hline (hps _ h6)
              · rcases List.mem_cons.mp h5 with h6 | h6
                · exact hnlq h6.symm
                · exact absurd h6 (by decide)
        · simp only [List.mem_singleton] at h2
          rw [h2]
          intro hc
          simp only [pyReplace] at hc
          rcases replaceScanAux_mem _ _ false _ _ _ _ hc with h3 | h3
          · exact hline h3
          · exact absurd h3 (by decide)
      · simp only [convertPieces, hfind]
        rfl

/-- The lines fed to a follow-up phase (split of the join of the
previous pieces) are newline-free, their remapped values form the
previous value chain, and stay within bounds. -/
theorem phase_input_facts (N : Nat) (ps : List (Str × Nat))
    (hnl : ∀ l ∈ ps.map Prod.fst, '\n' ∉ l)
    (hch : List.Chain' (· ≤ ·) (ps.map Prod.snd))
    (hbd : ∀ v ∈ ps.map Prod.snd, 1 ≤ v ∧ v ≤ max N 1) :
    (∀ p ∈ enum1 (pySplitNL (joinNL (ps.map Prod.fst))), '\n' ∉ p.2) ∧
    List.Chain' (· ≤ ·) ((enum1 (pySplitNL (joinNL (ps.map Prod.fst)))).map
      (fun p => dget (mkMap ps) p.1)) ∧
    (∀ p ∈ enum1 (pySplitNL (joinNL (ps.map Prod.fst))),
      1 ≤ dget (mkMap ps) p.1 ∧ dget (mkMap ps) p.1 ≤ max N 1) := by
  by_cases hps : ps = []
  · subst hps
    have hone : enum1 (pySplitNL (joinNL (([] : List (Str × Nat)).map Prod.fst)))
        = [(1, [])] := by decide
    refine ⟨?_, ?_, ?_⟩
    · rw [hone]
      decide
    · rw [hone]
      simp
    · intro p hp
      rw [hone] at hp
      simp only [List.mem_singleton] at hp
      subst hp
      constructor
      · decide
      · have h9 : dget (mkMap ([] : List (Str × Nat))) (1, ([] : Str)).1 = 1 := by decide
        rw [h9]
        exact le_max_right N 1
  · have hfst_ne : ps.map Prod.fst ≠ [] := by
      intro h2
      exact hps (List.map_eq_nil_iff.mp h2)
    have hsplit : pySplitNL (joinNL (ps.map Prod.fst)) = ps.map Prod.fst :=
      pySplitNL_joinNL _ hfst_ne hnl
    rw [hsplit]
    have hdget : (enum1 (ps.map Prod.fst)).map (fun p => dget (mkMap ps) p.1)
        = ps.map Prod.snd := enum1_dget_map ps (ps.map Prod.fst) (by simp)
    refine ⟨?_, ?_, ?_⟩
    · intro p hp
      exact hnl p.2 (enum1_mem_snd hp)
    · rw [hdget]
      exact hch
    · intro p hp
      have hmem : dget (mkMap ps) p.1 ∈ ps.map Prod.snd := by
        rw [← hdget]
        exact List.mem_map_of_mem _ hp
      exact hbd _ hmem

/-- The final `_convert_input_calls` phase yields a line map with keys
exactly `1..M` for `M` target lines, non-decreasing bounded values. -/
theorem convert_phase_final (N : Nat) (ps : List (Str × Nat)) (debug ch : Bool)
    (hnl : ∀ l ∈ ps.map Prod.fst, '\n' ∉ l)
    (hch : List.Chain' (· ≤ ·) (ps.map Prod.snd))
    (hbd : ∀ v ∈ ps.map Prod.snd, 1 ≤ v ∧ v ≤ max N 1)
    (t : Str) (m : LineMap)
    (h : convert_input_calls (joinNL (ps.map Prod.fst)) (mkMap ps) debug ch = (t, m)) :
    m.map Prod.fst = List.range' 1 m.length ∧
    m.length = (pySplitNL t).length ∧
    List.Chain' (· ≤ ·) (m.map Prod.snd) ∧
    (∀ p ∈ m, 1 ≤ p.2 ∧ p.2 ≤ max N 1) := by
  obtain ⟨Lnl, Lch, Lbd⟩ := phase_input_facts N ps hnl hch hbd
  obtain ⟨cpnl, cpemp, cpch, cphd, cpprov⟩ :=
    convertPieces_facts (mkMap ps) ch (enum1 (pySplitNL (joinNL (ps.map Prod.fst)))) Lnl
  unfold convert_input_calls at h
  dsimp only at h
  have ht := congrArg Prod.fst h
  have hm := congrArg Prod.snd h
  dsimp only at ht hm
  have hLne : enum1 (pySplitNL (joinNL (ps.map Prod.fst))) ≠ [] := by
    intro h2
    exact splitOnCh_ne_nil '\n' _ (enum1_eq_nil.mp h2)
  have hcpne : convertPieces (mkMap ps) ch
      (enum1 (pySplitNL (joinNL (ps.map Prod.fst)))) ≠ [] := by
    intro h2
    exact hLne (cpemp.mp h2)
  refine ⟨?_, ?_, ?_, ?_⟩
  · rw [← hm, mkMap_map_fst, mkMap_length]
  · rw [← hm, ← ht, mkMap_length]
    have houts : ∀ l ∈ (if debug
        then ((convertPieces (mkMap ps) ch
          (enum1 (pySplitNL (joinNL (ps.map Prod.fst))))).map Prod.fst).map
            (fun l => pyReplace l pauseLine inputEmpty)
        else (convertPieces (mkMap ps) ch
          (enum1 (pySplitNL (joinNL (ps.map Prod.fst))))).map Prod.fst),
        '\n' ∉ l := by
      cases debug
      · simp only [Bool.false_eq_true, if_false]
        intro l hl
        obtain ⟨q, hq, rfl⟩ := List.mem_map.mp hl
        exact cpnl q hq
      · simp only [if_true]
        intro l hl
        obtain ⟨l0, hl0, rfl⟩ := List.mem_map.mp hl
        obtain ⟨q, hq, rfl⟩ := List.mem_map.mp hl0
        intro hc
        simp only [pyReplace] at hc
        rcases replaceScanAux_mem _ _ false _ _ _ _ hc with h3 | h3
        · exact cpnl q hq h3
        · exact absurd h3 (by decide)
    have houtne : (if debug
        then ((convertPieces (mkMap ps) ch
          (enum1 (pySplitNL (joinNL (ps.map Prod.fst))))).map Prod.fst).map
            (fun l => pyReplace l pauseLine inputEmpty)
        else (convertPieces (mkMap ps) ch
          (enum1 (pySplitNL (joinNL (ps.map Prod.fst))))).map Prod.fst) ≠ [] := by
      cases debug
      · simp only [Bool.false_eq_true, if_false]
        intro h2
        exact hcpne (List.map_eq_nil_iff.mp h2)
      · simp only [if_true]
        intro h2
        exact hcpne (List.map_eq_nil_iff.mp (List.map_eq_nil_iff.mp h2))
    rw [pySplitNL_joinNL _ houtne houts]
    cases debug <;> simp
  · rw [← hm, mkMap_map_snd]
    exact cpch Lch
  · intro p hp
    have hsnd : p.2 ∈ m.map Prod.snd := List.mem_map_of_mem _ hp
    rw [← hm, mkMap_map_snd] at hsnd
    obtain ⟨q, hq, hqeq⟩ := List.mem_map.mp hsnd
    obtain ⟨pL, hpL, hval⟩ := cpprov q hq
    rw [← hqeq, hval]
    exact Lbd pL hpL

/-- C8 (amended): for every source program of `N` lines and every
combination of the debug and challenge flags, a successful
transpilation yields a line map whose keys are exactly the target-line
numbers `1..M` (`M` the number of target lines), in order, whose values
are monotonically non-decreasing, and whose values lie in
`1..max N 1` — for the empty program (`N = 0`) the single target line
maps to source line `1`, not to a line of the source. -/
theorem line_map_total_monotone (src : Str) (debug challenge : Bool)
    (t : Str) (m : LineMap)
    (h : transpile_code src debug challenge = .ok (t, m)) :
    m.map Prod.fst = List.range' 1 m.length ∧
    m.length = (pySplitNL t).length ∧
    List.Chain' (· ≤ ·) (m.map Prod.snd) ∧
    (∀ p ∈ m, 1 ≤ p.2 ∧ p.2 ≤ max (pySplitlines src).length 1) := by
  unfold transpile_code at h
  split at h
  · exact absurd h (by simp)
  · dsimp only at h
    have hbase_nl : ∀ l ∈ (transpile_base_lines src).map Prod.fst, '\n' ∉ l := by
      rw [transpile_base_lines_fst]
      intro l hl
      obtain ⟨l0, hl0, rfl⟩ := List.mem_map.mp hl
      exact transpileLine_nlfree (pySplitlines_no_newline src l0 hl0).1
    have hbase_ch : List.Chain' (· ≤ ·) ((transpile_base_lines src).map Prod.snd) := by
      rw [transpile_base_lines_snd]
      exact chain_le_range2 _ _
    have hbase_bd : ∀ v ∈ (transpile_base_lines src).map Prod.snd,
        1 ≤ v ∧ v ≤ max (pySplitlines src).length 1 := by
      rw [transpile_base_lines_snd]
      intro v hv
      rw [List.mem_range'_1] at hv
      exact ⟨hv.1, le_trans (by omega) (le_max_left _ 1)⟩
    cases debug
    · simp only [Bool.false_eq_true, if_false] at h
      cases hcv : convert_input_calls
          (joinNL ((transpile_base_lines src).map Prod.fst))
          (mkMap (transpile_base_lines src)) false challenge with
      | mk t2 m2 =>
        rw [hcv] at h
        cases h
        exact convert_phase_final _ _ false challenge hbase_nl hbase_ch hbase_bd
          _ _ hcv
    · simp only [if_true] at h
      cases hadd : add_debug_instrumentation
          (joinNL ((transpile_base_lines src).map Prod.fst))
          (mkMap (transpile_base_lines src)) with
      | error e =>
        rw [hadd] at h
        exact absurd h (by simp)
      | ok pr =>
        obtain ⟨code1, m1⟩ := pr
        rw [hadd] at h
        dsimp only at h
        unfold add_debug_instrumentation at hadd
        split at hadd
        · exact absurd hadd (by simp)
        · rename_i ps1 hps1
          obtain ⟨Lnl, Lch, Lbd⟩ := phase_input_facts (pySplitlines src).length
            (transpile_base_lines src) hbase_nl hbase_ch hbase_bd
          obtain ⟨dnl, demp, dch, dhd, dprov⟩ :=
            debugPieces_facts (mkMap (transpile_base_lines src)) _ ps1 hps1 Lnl
          have hcode1 : code1 = joinNL (ps1.map Prod.fst) := by
            have h2 := congrArg (fun r => match r with
              | Except.ok (c, _) => c
              | Except.error _ => []) hadd
            dsimp only at h2
            exact h2.symm
          have hm1 : m1 = mkMap ps1 := by
            have h2 := congrArg (fun r => match r with
              | Except.ok (_, mm) => mm
              | Except.error _ => []) hadd
            dsimp only at h2
            exact h2.symm
          subst hcode1
          subst hm1
          have hps1_nl : ∀ l ∈ ps1.map Prod.fst, '\n' ∉ l := by
            intro l hl
            obtain ⟨q, hq, rfl⟩ := List.mem_map.mp hl
            exact dnl q hq
          have hps1_ch : List.Chain' (· ≤ ·) (ps1.map Prod.snd) := dch Lch
          have hps1_bd : ∀ v ∈ ps1.map Prod.snd,
              1 ≤ v ∧ v ≤ max (pySplitlines src).length 1 := by
            intro v hv
            obtain ⟨q, hq, rfl⟩ := List.mem_map.mp hv
            obtain ⟨pL, hpL, hval⟩ := dprov q hq
            rw [hval]
            exact Lbd pL hpL
          cases hcv : convert_input_calls (joinNL (ps1.map Prod.fst))
              (mkMap ps1) true challenge with
          | mk t2 m2 =>
            rw [hcv] at h
            cases h
            exact convert_phase_final _ _ true challenge hps1_nl hps1_ch hps1_bd
              _ _ hcv

set_option maxRecDepth 10000 in
/-- C8 counterexample to the original claim: the empty program has
`N = 0` source lines, yet its line map is `{1: 1}` — the single target
line is assigned source line `1`, which is not a line of the source. -/
theorem line_map_empty_cex :
    transpile_code [] false false = .ok ([], [(1, 1)]) ∧
    (pySplitlines ([] : Str)).length = 0 ∧
    ∀ p ∈ [(1, 1)], ¬ (1 ≤ p.2 ∧ p.2 ≤ (pySplitlines ([] : Str)).length) := by
  refine ⟨by decide, by decide, by decide⟩

set_option maxRecDepth 40000 in
/-- C8 witness: the line-map theorem applied to a two-line program
transpiled in debug mode. -/
theorem line_map_total_monotone_witness :
    wMapC8.map Prod.fst = List.range' 1 wMapC8.length ∧
    wMapC8.length = (pySplitNL wTgtC8).length ∧
    List.Chain' (· ≤ ·) (wMapC8.map Prod.snd) ∧
    (∀ p ∈ wMapC8, 1 ≤ p.2 ∧ p.2 ≤ max (pySplitlines wSrcC8).length 1) :=
  line_map_total_monotone wSrcC8 true false wTgtC8 wMapC8 (by decide)

/-- Membership in a `range'`-keyed zip determines the positional get. -/
theorem zip_range_mem_get : ∀ (ls : List Str) (s : Nat) (p : Nat × Str),
    p ∈ (List.range' s ls.length).zip ls → ls.get? (p.1 - s) = some p.2 := by
  intro ls
  induction ls with
  | nil => intro s p hp; simp at hp
  | cons l ls2 ih =>
    intro s p hp
    simp only [List.length_cons, List.range', List.zip_cons_cons] at hp
    rcases List.mem_cons.mp hp with h2 | h2
    · rw [h2]
      simp
    · have hbound : s + 1 ≤ p.1 := by
        have h3 := (List.of_mem_zip h2).1
        exact (List.mem_range'_1.mp h3).1
      have h4 : p.1 - s = (p.1 - (s + 1)) + 1 := by omega
      rw [h4]
      exact ih (s + 1) p h2

/-- `enumerate(lines, 1)` membership determines the numbered line. -/
theorem enum1_mem_get {ls : List Str} {i : Nat} {l : Str}
    (h : (i, l) ∈ enum1 ls) : ls.get? (i - 1) = some l := by
  rw [enum1_eq_zip] at h
  exact zip_range_mem_get ls 1 (i, l) h

/-- A `some` result of the validation loop reports a member line whose
comment-stripped text contains the reported Python keyword, with the
table pairing. -/
theorem validateLines_some : ∀ (L : List (Nat × Str)) (e : FKErr),
    validateLines L = some e →
    ∃ l, (e.line, l) ∈ L ∧ containsWord e.py (stripCommentSpec l) = true ∧
      (e.suggestion, e.py) ∈ KEYWORD_MAP := by
  intro L
  induction L with
  | nil => intro e h; simp [validateLines] at h
  | cons hd rest ih =>
    intro e h
    obtain ⟨i, l⟩ := hd
    rw [validateLines] at h
    split at h
    · rename_i p hp
      cases h
      refine ⟨l, by simp, ?_, ?_⟩
      · have h5 := List.find?_some hp
        simpa using h5
      · have hmem := List.mem_of_find?_eq_some hp
        simpa using hmem
    · obtain ⟨l2, hl2, hcw, hmem⟩ := ih e h
      exact ⟨l2, List.mem_cons_of_mem _ hl2, hcw, hmem⟩

/-- The validation loop returns `none` exactly when no line contains
any Python keyword of the table as a standalone word. -/
theorem validateLines_none : ∀ L : List (Nat × Str),
    validateLines L = none ↔
    ∀ p ∈ L, ∀ kw ∈ KEYWORD_MAP,
      containsWord kw.2 (stripCommentSpec p.2) = false := by
  intro L
  induction L with
  | nil => simp [validateLines]
  | cons hd rest ih =>
    obtain ⟨i, l⟩ := hd
    constructor
    · intro h p hp kw hkw
      rw [validateLines] at h
      split at h
      · exact absurd h (by simp)
      · rename_i hfind
        rcases List.mem_cons.mp hp with h2 | h2
        · rw [h2]
          have h3 := List.find?_eq_none.mp hfind kw hkw
          simpa using h3
        · exact ih.mp h p h2 kw hkw
    · intro hall
      rw [validateLines]
      split
      · rename_i p hp
        have h2 := List.find?_some hp
        have h3 := hall (i, l) (by simp) p (List.mem_of_find?_eq_some hp)
        rw [h3] at h2
        exact Bool.noConfusion h2
      · exact ih.mpr (fun p hp kw hkw => hall p (List.mem_cons_of_mem _ hp) kw hkw)

/-- C3 (amended): a validation rejection is surfaced by `transpile_code`
as a `ForeignKeyword` error whose reported line contains the reported
Python keyword as a standalone word in its comment-stripped text, with
the isiXhosa suggestion paired in the table; some offending line forces
a rejection; and with a clean validation, transpilation with debugging
off always succeeds (the original "does not fail" is unconditional and
fails in debug mode). -/
theorem foreign_keyword_validation (src : Str) (debug challenge : Bool) :
    (∀ e, validate_isipython_only src = some e →
      transpile_code src debug challenge = .error (.foreignKeyword e) ∧
      (e.suggestion, e.py) ∈ KEYWORD_MAP ∧
      ((pySplitlines src).get? (e.line - 1)).any
        (fun l => containsWord e.py (stripCommentSpec l)) = true) ∧
    ((∃ p ∈ enum1 (pySplitlines src), ∃ kw ∈ KEYWORD_MAP,
        containsWord kw.2 (stripCommentSpec p.2) = true) →
      ∃ e, validate_isipython_only src = some e) ∧
    (validate_isipython_only src = none →
      ∃ t2 m2, transpile_code src false challenge = .ok (t2, m2)) := by
  refine ⟨?_, ?_, ?_⟩
  · intro e he
    have he2 : validateLines (enum1 (pySplitlines src)) = some e := he
    obtain ⟨l, hl, hcw, hmem⟩ := validateLines_some _ e he2
    refine ⟨?_, hmem, ?_⟩
    · unfold transpile_code
      rw [he]
    · rw [enum1_mem_get hl]
      simpa using hcw
  · intro hex
    obtain ⟨p, hp, kw, hkw, hcw⟩ := hex
    cases hval : validate_isipython_only src with
    | some e => exact ⟨e, rfl⟩
    | none =>
      have h2 := (validateLines_none _).mp hval p hp kw hkw
      rw [h2] at hcw
      exact Bool.noConfusion hcw
  · intro hval
    unfold transpile_code
    rw [hval]
    dsimp only
    simp only [Bool.false_eq_true, if_false]
    exact ⟨_, _, rfl⟩

/-- C3 counterexample to the unconditional "does not fail": the line
`:` contains no Python keyword, yet debug-mode transpilation fails —
the instrumenter's `stripped.rstrip(':').split()[0]` raises
`IndexError` on a line of colons. -/
theorem debug_colon_failure_cex :
    (∀ kw ∈ KEYWORD_MAP, containsWord kw.2 (stripCommentSpec [':']) = false) ∧
    transpile_code [':'] true false = .error (.pyError .indexError) := by
  exact ⟨by decide, by decide⟩

/-- C3 witness: the validation theorem applied to `import os`, which is
rejected on line 1 with suggestion `ngenisa`. -/
theorem foreign_keyword_validation_witness :
    transpile_code wSrcC3 false false =
      .error (.foreignKeyword ⟨1, "import".toList, "ngenisa".toList⟩) ∧
    ("ngenisa".toList, "import".toList) ∈ KEYWORD_MAP ∧
    ((pySplitlines wSrcC3).get? 0).any
      (fun l => containsWord "import".toList (stripCommentSpec l)) = true := by
  have h := (foreign_keyword_validation wSrcC3 false false).1
    ⟨1, "import".toList, "ngenisa".toList⟩ (by decide)
  exact ⟨h.1, h.2.1, h.2.2⟩

/-- The first two components of `gradeLoop` are the weight-sum over
passed cases and the passed count. -/
theorem gradeLoop_fst_snd (run : TestCase → CaseResult) (cases : List TestCase) :
    (gradeLoop run cases).1 =
      ((cases.filter (fun tc => (run tc).status = strPassed)).map
        (fun tc => tc.points_weight)).sum ∧
    (gradeLoop run cases).2.1 =
      cases.countP (fun tc => (run tc).status = strPassed) := by
  induction cases with
  | nil => simp [gradeLoop]
  | cons tc rest ih =>
    obtain ⟨ih1, ih2⟩ := ih
    by_cases hp : (run tc).status = strPassed
    · by_cases hh : tc.is_hidden <;>
        simp [gradeLoop, hp, hh, List.filter_cons, List.countP_cons, ih1, ih2] <;>
        ring
    · by_cases hh : tc.is_hidden <;>
        simp [gradeLoop, hp, hh, List.filter_cons, List.countP_cons, ih1, ih2]

/-- C9 — the grader's score is the sum of the weights of the passed
cases, the passed/total counts are the evident tallies, and the overall
status is `passed` exactly when every case passed. -/
theorem grader_aggregation (run : TestCase → CaseResult) (cases : List TestCase) :
    (execute_challenge_aggregate run cases).score =
      ((cases.filter (fun tc => (run tc).status = strPassed)).map
        (fun tc => tc.points_weight)).sum ∧
    (execute_challenge_aggregate run cases).tests_passed =
      cases.countP (fun tc => (run tc).status = strPassed) ∧
    (execute_challenge_aggregate run cases).tests_total = cases.length ∧
    ((execute_challenge_aggregate run cases).status = strPassed ↔
      (execute_challenge_aggregate run cases).tests_passed =
        (execute_challenge_aggregate run cases).tests_total) := by
  obtain ⟨h1, h2⟩ := gradeLoop_fst_snd run cases
  refine ⟨?_, ?_, ?_, ?_⟩
  · simpa [execute_challenge_aggregate] using h1
  · simpa [execute_challenge_aggregate] using h2
  · rfl
  · unfold execute_challenge_aggregate
    by_cases h : (gradeLoop run cases).2.1 = cases.length
    · simp [h]
    · have hne : (strFailed : Str) ≠ strPassed := by decide
      simp [h, hne]

/-- C6 — the code compares with Python `strip()` on both ends, so a
test case whose expected output carries leading whitespace is graded
`passed` although the trailing-whitespace-trimmed values differ (the
repository's own test `test_output_stripping`, case c, expects
`failed` here). -/
theorem single_test_strips_leading_whitespace :
    (execute_single_test
        { output := some "Expected Output   \n".toList }
        { input_data := ["5".toList]
          expected_output := "    Expected Output ".toList
          points_weight := 1 }).status = strPassed ∧
    pyRstrip "Expected Output   \n".toList ≠
      pyRstrip "    Expected Output ".toList := by
  constructor
  · rfl
  · decide

/-- A correctly invoked `_finalize_session` produces a terminal
snapshot carrying the line map — the behaviour the exit branch of
`_check_execution_status` intends to reach. -/
theorem finalize_session_terminal (s : Session) (remOut remErr : List Str) :
    (finalize_session s remOut remErr).completed = some true ∧
    (finalize_session s remOut remErr).line_mapping = some s.line_mapping := ⟨rfl, rfl⟩

/-- C1 — whenever the child's exit code is available, the next
classification does not return the claimed terminal snapshot: the call
`_finalize_session(session, return_code)` passes two arguments to the
one-parameter `_finalize_session`, so the observation raises
`TypeError` (surfaced as a `Failed to start execution:`/`Failed to
send input:` error dict by the callers that guard with `try`). -/
theorem exited_session_status_raises (s : Session) (rc : Int)
    (hp : s.process_started = true) (hx : s.exitCode = some rc) :
    check_execution_status s = .error .typeErrorFinalizeArity := by
  unfold check_execution_status
  rw [hx]
  simp [hp]

/-- Witness for C1 at a session whose child exited with code 0. -/
theorem exited_session_status_raises_witness :
    (exitedSession.process_started = true ∧ exitedSession.exitCode = some 0) ∧
    check_execution_status exitedSession = .error .typeErrorFinalizeArity :=
  ⟨⟨rfl, rfl⟩, exited_session_status_raises exitedSession 0 rfl rfl⟩

/-- Two distinct marker prefixes of equal length cannot both start the
same line. -/
theorem linePrefix_not_varsPrefix (l : Str)
    (h : startsWith dddLinePrefix l = true) :
    startsWith dddVarsPrefix l = false := by
  by_contra hv
  simp only [Bool.not_eq_false] at hv
  unfold startsWith at h hv
  have h1 := List.isPrefixOf_iff_prefix.mp h
  have h2 := List.isPrefixOf_iff_prefix.mp hv
  have hlen : dddLinePrefix.length = dddVarsPrefix.length := by decide
  rcases List.prefix_or_prefix_of_prefix h1 h2 with hp | hp
  · have := hp.eq_of_length hlen
    exact absurd this (by decide)
  · have := hp.eq_of_length hlen.symm
    exact absurd this (by decide)

/-- A step with the line field already set leaves it unchanged. -/
theorem parseDebugStep_line_some (l : Str) (info info' : DebugInfo) (k : Int)
    (hk : info.line = some k) (h : parseDebugStep l info = .ok info') :
    info'.line = some k := by
  unfold parseDebugStep at h
  rw [if_neg (by simp [hk])] at h
  split at h
  · cases h
    simpa using hk
  · cases h
    exact hk

/-- A step with the vars field already set leaves it unchanged. -/
theorem parseDebugStep_vars_some (l : Str) (info info' : DebugInfo) (v : Str)
    (hv : info.vars = some v) (h : parseDebugStep l info = .ok info') :
    info'.vars = some v := by
  unfold parseDebugStep at h
  split at h
  · split at h
    · exact absurd h (by simp)
    · cases h
      simpa using hv
  · rw [if_neg (by simp [hv])] at h
    cases h
    exact hv

/-- Once the line field is set, the scan never changes it. -/
theorem parseDebugLoop_line_some :
    ∀ (rev : List Str) (info info' : DebugInfo) (k : Int), info.line = some k →
      parseDebugLoop rev info = .ok info' → info'.line = some k := by
  intro rev
  induction rev with
  | nil =>
    intro info info' k hk h
    simp only [parseDebugLoop, Except.ok.injEq] at h
    rw [← h]; exact hk
  | cons l rest ih =>
    intro info info' k hk h
    simp only [parseDebugLoop] at h
    cases hstep : parseDebugStep l info with
    | error e => rw [hstep] at h; exact absurd h (by simp)
    | ok info1 =>
      rw [hstep] at h
      dsimp only at h
      have hk1 : info1.line = some k := parseDebugStep_line_some l info info1 k hk hstep
      by_cases hb : info1.line ≠ none ∧ info1.vars ≠ none
      · rw [if_pos hb] at h
        cases h
        exact hk1
      · rw [if_neg hb] at h
        exact ih info1 info' k hk1 h

/-- Once the vars field is set, the scan never changes it. -/
theorem parseDebugLoop_vars_some :
    ∀ (rev : List Str) (info info' : DebugInfo) (v : Str), info.vars = some v →
      parseDebugLoop rev info = .ok info' → info'.vars = some v := by
  intro rev
  induction rev with
  | nil =>
    intro info info' v hv h
    simp only [parseDebugLoop, Except.ok.injEq] at h
    rw [← h]; exact hv
  | cons l rest ih =>
    intro info info' v hv h
    simp only [parseDebugLoop] at h
    cases hstep : parseDebugStep l info with
    | error e => rw [hstep] at h; exact absurd h (by simp)
    | ok info1 =>
      rw [hstep] at h
      dsimp only at h
      have hv1 : info1.vars = some v := parseDebugStep_vars_some l info info1 v hv hstep
      by_cases hb : info1.line ≠ none ∧ info1.vars ≠ none
      · rw [if_pos hb] at h
        cases h
        exact hv1
      · rw [if_neg hb] at h
        exact ih info1 info' v hv1 h

/-- Two distinct marker prefixes of equal length cannot both start the
same line (converse direction). -/
theorem varsPrefix_not_linePrefix (l : Str)
    (h : startsWith dddVarsPrefix l = true) :
    startsWith dddLinePrefix l = false := by
  by_contra hv
  simp only [Bool.not_eq_false] at hv
  exact absurd h (by simp [linePrefix_not_varsPrefix l hv])

/-- A step on a non-`LINE` line leaves the line field unchanged. -/
theorem parseDebugStep_line_skip (l : Str) (info info' : DebugInfo)
    (hL : startsWith dddLinePrefix l = false)
    (h : parseDebugStep l info = .ok info') : info'.line = info.line := by
  unfold parseDebugStep at h
  rw [if_neg (by simp [hL])] at h
  split at h
  · cases h; rfl
  · cases h; rfl

/-- A step on a non-`VARS` line leaves the vars field unchanged. -/
theorem parseDebugStep_vars_skip (l : Str) (info info' : DebugInfo)
    (hV : startsWith dddVarsPrefix l = false)
    (h : parseDebugStep l info = .ok info') : info'.vars = info.vars := by
  unfold parseDebugStep at h
  split at h
  · split at h
    · exact absurd h (by simp)
    · cases h; rfl
  · rw [if_neg (by simp [hV])] at h
    cases h; rfl

/-- With an unset line field, the scan decodes the first `D-D-D:LINE:`
line of the walk (and raises if its payload is not numeric). -/
theorem parseDebugLoop_line_none :
    ∀ (rev : List Str) (info info' : DebugInfo), info.line = none →
      parseDebugLoop rev info = .ok info' →
      info'.line =
        (rev.find? (fun l => startsWith dddLinePrefix l)).bind lineFieldParse := by
  intro rev
  induction rev with
  | nil =>
    intro info info' hk h
    simp only [parseDebugLoop, Except.ok.injEq] at h
    rw [← h]
    simpa using hk
  | cons l rest ih =>
    intro info info' hk h
    simp only [parseDebugLoop] at h
    by_cases hL : startsWith dddLinePrefix l = true
    · have hfind : (l :: rest).find? (fun l => startsWith dddLinePrefix l) = some l := by
        simp [List.find?, hL]
      rw [hfind]
      cases hstep : parseDebugStep l info with
      | error e => rw [hstep] at h; exact absurd h (by simp)
      | ok info1 =>
        obtain ⟨k, hp, hinfo1⟩ :
            ∃ k, lineFieldParse l = some k ∧ info1 = { info with line := some k } := by
          unfold parseDebugStep at hstep
          rw [if_pos ⟨hk, hL⟩] at hstep
          cases hp : lineFieldParse l with
          | none => rw [hp] at hstep; exact absurd hstep (by simp)
          | some k => rw [hp] at hstep; cases hstep; exact ⟨k, rfl, rfl⟩
        rw [hstep] at h
        dsimp only at h
        have hk1 : info1.line = some k := by rw [hinfo1]
        by_cases hb : info1.line ≠ none ∧ info1.vars ≠ none
        · rw [if_pos hb] at h
          cases h
          simp [hk1, hp]
        · rw [if_neg hb] at h
          have := parseDebugLoop_line_some rest info1 info' k hk1 h
          simp [this, hp]
    · have hL' : startsWith dddLinePrefix l = false := by simpa using hL
      have hfind : (l :: rest).find? (fun l => startsWith dddLinePrefix l) =
          rest.find? (fun l => startsWith dddLinePrefix l) := by
        simp [List.find?, hL']
      rw [hfind]
      cases hstep : parseDebugStep l info with
      | error e => rw [hstep] at h; exact absurd h (by simp)
      | ok info1 =>
        rw [hstep] at h
        dsimp only at h
        have hk1 : info1.line = none := by
          rw [parseDebugStep_line_skip l info info1 hL' hstep, hk]
        have hb : ¬ (info1.line ≠ none ∧ info1.vars ≠ none) := by
          intro hc
          exact hc.1 hk1
        rw [if_neg hb] at h
        exact ih info1 info' hk1 h

/-- With an unset vars field, the scan records the payload of the first
`D-D-D:VARS:` line of the walk. -/
theorem parseDebugLoop_vars_none :
    ∀ (rev : List Str) (info info' : DebugInfo), info.vars = none →
      parseDebugLoop rev info = .ok info' →
      info'.vars =
        (rev.find? (fun l => startsWith dddVarsPrefix l)).map (fun l => l.drop 11) := by
  intro rev
  induction rev with
  | nil =>
    intro info info' hv h
    simp only [parseDebugLoop, Except.ok.injEq] at h
    rw [← h]
    simpa using hv
  | cons l rest ih =>
    intro info info' hv h
    simp only [parseDebugLoop] at h
    by_cases hV : startsWith dddVarsPrefix l = true
    · have hL' : startsWith dddLinePrefix l = false := varsPrefix_not_linePrefix l hV
      have hfind : (l :: rest).find? (fun l => startsWith dddVarsPrefix l) = some l := by
        simp [List.find?, hV]
      rw [hfind]
      cases hstep : parseDebugStep l info with
      | error e => rw [hstep] at h; exact absurd h (by simp)
      | ok info1 =>
        have hinfo1 : info1 = { info with vars := some (l.drop 11) } := by
          unfold parseDebugStep at hstep
          rw [if_neg (by simp [hL']), if_pos ⟨hv, hV⟩] at hstep
          cases hstep
          rfl
        rw [hstep] at h
        dsimp only at h
        have hv1 : info1.vars = some (l.drop 11) := by rw [hinfo1]
        by_cases hb : info1.line ≠ none ∧ info1.vars ≠ none
        · rw [if_pos hb] at h
          cases h
          simp [hv1]
        · rw [if_neg hb] at h
          have := parseDebugLoop_vars_some rest info1 info' (l.drop 11) hv1 h
          simp [this]
    · have hV' : startsWith dddVarsPrefix l = false := by simpa using hV
      have hfind : (l :: rest).find? (fun l => startsWith dddVarsPrefix l) =
          rest.find? (fun l => startsWith dddVarsPrefix l) := by
        simp [List.find?, hV']
      rw [hfind]
      cases hstep : parseDebugStep l info with
      | error e => rw [hstep] at h; exact absurd h (by simp)
      | ok info1 =>
        rw [hstep] at h
        dsimp only at h
        have hv1 : info1.vars = none := by
          rw [parseDebugStep_vars_skip l info info1 hV' hstep, hv]
        have hb : ¬ (info1.line ≠ none ∧ info1.vars ≠ none) := by
          intro hc
          exact hc.2 hv1
        rw [if_neg hb] at h
        exact ih info1 info' hv1 h

/-- `_parse_debug_output` decodes, within the ten most recent buffered
lines, the most recent `D-D-D:LINE:` payload and the most recent
`D-D-D:VARS:` payload (backward scan; first hit of each kind). -/
theorem parse_debug_output_spec (lines : List Str) (info : DebugInfo)
    (h : parse_debug_output lines = .ok info) :
    info.line =
      ((lastN 10 lines).reverse.find? (fun l => startsWith dddLinePrefix l)).bind
        lineFieldParse ∧
    info.vars =
      ((lastN 10 lines).reverse.find? (fun l => startsWith dddVarsPrefix l)).map
        (fun l => l.drop 11) :=
  ⟨parseDebugLoop_line_none _ _ _ rfl h, parseDebugLoop_vars_none _ _ _ rfl h⟩

/-- C5 (amended) — for a session whose child is still running and whose
last buffered output line is `D-D-D:STEP`, the status snapshot is a
`WaitingForDebugStep` snapshot whose current line and variable payload
are decoded from the most recent `D-D-D:LINE:<n>` and `D-D-D:VARS:<…>`
lines **within the ten most recently buffered lines**
(`output_lines[-10:]`), scanning backwards and stopping once both are
found; markers further back in the buffer are not consulted. -/
theorem debug_step_snapshot (s : Session) (info : DebugInfo)
    (hp : s.process_started = true)
    (hx : s.exitCode = none)
    (hstep : is_waiting_for_debug_step s = true)
    (hparse : parse_debug_output s.output_lines = .ok info) :
    check_execution_status s = .ok
      { session_id := some s.session_id
        waiting_for_debug_step := some true
        waiting_for_input := some false
        current_line := info.line
        varsPayload := info.vars
        output := some (filter_program_output s.output_lines) } ∧
    info.line =
      ((lastN 10 s.output_lines).reverse.find?
        (fun l => startsWith dddLinePrefix l)).bind lineFieldParse ∧
    info.vars =
      ((lastN 10 s.output_lines).reverse.find?
        (fun l => startsWith dddVarsPrefix l)).map (fun l => l.drop 11) := by
  obtain ⟨h1, h2⟩ := parse_debug_output_spec s.output_lines info hparse
  refine ⟨?_, h1, h2⟩
  unfold check_execution_status
  rw [hx]
  simp [hp, hstep, hparse]

/-- Witness for the amended C5 at a concrete debug-paused session. -/
theorem debug_step_snapshot_witness :
    (wDebugSession.process_started = true ∧ wDebugSession.exitCode = none ∧
      is_waiting_for_debug_step wDebugSession = true ∧
      parse_debug_output wDebugSession.output_lines = .ok wDebugInfo) ∧
    (check_execution_status wDebugSession = .ok
      { session_id := some wDebugSession.session_id
        waiting_for_debug_step := some true
        waiting_for_input := some false
        current_line := wDebugInfo.line
        varsPayload := wDebugInfo.vars
        output := some (filter_program_output wDebugSession.output_lines) } ∧
    wDebugInfo.line =
      ((lastN 10 wDebugSession.output_lines).reverse.find?
        (fun l => startsWith dddLinePrefix l)).bind lineFieldParse ∧
    wDebugInfo.vars =
      ((lastN 10 wDebugSession.output_lines).reverse.find?
        (fun l => startsWith dddVarsPrefix l)).map (fun l => l.drop 11)) :=
  ⟨⟨rfl, rfl, by decide, by rfl⟩,
    debug_step_snapshot wDebugSession wDebugInfo rfl rfl (by decide) (by rfl)⟩

/-- C5 (counterexample) — with the most recent `D-D-D:LINE:7` marker
twelve lines back, the snapshot's current line is `None` although the
claimed unbounded backward scan finds line 7: the code only scans
`output_lines[-10:]`. -/
theorem debug_step_window_cex :
    (check_execution_status farMarkerSession).map Snapshot.current_line =
      .ok none ∧
    (check_execution_status farMarkerSession).map Snapshot.waiting_for_debug_step =
      .ok (some true) ∧
    claimedDecodeLine farMarkerSession.output_lines = some 7 := by
  refine ⟨by rfl, by rfl, by decide⟩

/-- C4 — keyword substitution is applied to the whole pre-`#` part of
the line, string literals included: the source line `print("ukuba")`
has its string-literal region rewritten to `print("if")` by
`transpile_code`, so string regions are not byte-identical between
source and target (the repository's own test
`test_substitute_keywords_in_strings` expects strings to be preserved).
Comments, by contrast, are reattached verbatim. -/
theorem substitution_rewrites_string_literals :
    (transpile_code "print(\"ukuba\")".toList false false).map Prod.fst =
      .ok "print(\"if\")".toList ∧
    "print(\"if\")".toList ≠ "print(\"ukuba\")".toList := by
  refine ⟨by decide, by decide⟩

/-- C10 — after every append the buffer holds at most 100 lines, and an
append to a full buffer keeps exactly the 100 most recent lines in
order (the oldest line is dropped). -/
theorem add_output_line_bounded (buf : List Str) (line : Str)
    (h : buf.length ≤ 100) :
    (add_output_line buf line).length ≤ 100 ∧
    add_output_line buf line = (buf ++ [line]).drop (buf.length + 1 - 100) := by
  unfold add_output_line
  rcases Nat.lt_or_ge buf.length 100 with hlt | hge
  · have hlen : (buf ++ [line]).length = buf.length + 1 := by simp
    have hng : ¬ (buf ++ [line]).length > 100 := by omega
    simp only [hng, if_false]
    constructor
    · omega
    · have : buf.length + 1 - 100 = 0 := by omega
      simp [this]
  · have heq : buf.length = 100 := le_antisymm h hge
    have hlen : (buf ++ [line]).length = 101 := by simp [heq]
    have hg : (buf ++ [line]).length > 100 := by omega
    simp only [hg, if_true]
    refine ⟨?_, ?_⟩
    · simp [hlen]
    · rw [hlen, heq]

/-- Witness for C10 at a concrete full buffer. -/
theorem add_output_line_bounded_witness :
    (List.replicate 100 ('a' :: [])).length ≤ 100 ∧
    ((add_output_line (List.replicate 100 ('a' :: [])) ['b']).length ≤ 100 ∧
      add_output_line (List.replicate 100 ('a' :: [])) ['b'] =
        (List.replicate 100 ('a' :: []) ++ [['b']]).drop
          ((List.replicate 100 ('a' :: [])).length + 1 - 100)) := by
  refine ⟨by simp, add_output_line_bounded _ _ (by simp)⟩

end IsiPython
